import Mathlib

/-!
# apcupsdexporter: the receive loop, the report parser, the field converters and the metric projection

A shallow embedding of `main.go`.

* Go strings are Lean strings, read through their list of characters (the report is
  taken to be valid UTF-8, so that splitting on the one-byte separators `"\n"`, `":"`
  and `" "` is splitting the character list).
* `float64` is a type parameter `V` with `NatCast V`: `((n : ℕ) : V)` is `float64(n)`, and the
  zero value of `float64` is `((0 : ℕ) : V)`.  `strconv.ParseFloat(·, 64)` is a parameter
  `ParseFloat : String → Option V`, `none` standing for `err != nil`.
* `convert_status` and `convert_alarmdel` are computed in `ℕ`: the floats they add are
  integers, and `float64` addition of integers is exact below `2 ^ 53`.
* The global `metrics` struct has thirty fields of the same type; it is a function from
  the thirty field names to an optional gauge, `none` being `nil`.
* The connection of `nis_request` is the list of the pieces of bytes still to come: a call
  of `conn.Read` returns bytes of one piece only, and the end of the list is `io.EOF`. The
  loop runs on fuel, with a proof that the fuel it is given never runs out.
-/

namespace Apcupsd

/-! ## The string functions of Go's `strings` package used by the program -/

/-- Go's `unicode.IsSpace`: the Latin-1 spaces and the code points with the Unicode
White_Space property. -/
def isSpace (c : Char) : Bool :=
  c = '\t' || c = '\n' || c.toNat = 0x0B || c.toNat = 0x0C || c = '\r' || c = ' ' ||
  c.toNat = 0x85 || c.toNat = 0xA0 || c.toNat = 0x1680 ||
  (0x2000 ≤ c.toNat && c.toNat ≤ 0x200A) ||
  c.toNat = 0x2028 || c.toNat = 0x2029 || c.toNat = 0x202F || c.toNat = 0x205F ||
  c.toNat = 0x3000

/-- The characters left when the leading, then the trailing white space is dropped. -/
def trimChars (l : List Char) : List Char :=
  (l.dropWhile isSpace).rdropWhile isSpace

/-- Go's `strings.TrimSpace`: all leading and trailing white space removed. -/
def TrimSpace (s : String) : String :=
  ⟨trimChars s.data⟩

/-- Go's `strings.TrimRight(s, cutset)`: all trailing characters contained in `cutset`
removed. -/
def TrimRight (s : String) (cutset : String) : String :=
  ⟨s.data.rdropWhile fun c => decide (c ∈ cutset.data)⟩

/-- Go's `strings.Split(s, sep)` for a separator of one character: the substrings between
the separators; `count sep + 1` of them, so `[""]` for the empty string. -/
def Split (s : String) (sep : Char) : List String :=
  (s.data.splitOn sep).map String.mk

/-- Go's `strings.Join(elems, sep)`. -/
def Join (elems : List String) (sep : String) : String :=
  ⟨sep.data.intercalate (elems.map String.data)⟩

/-! ## Field converters -/

/-- The map literal `status_codes` of `convert_status`: `none` when the key is absent. -/
def status_codes (statusstring : String) : Option ℕ :=
  match statusstring with
  | "ONLINE" => some 0
  | "ONBATT" => some 1
  | "CAL" => some 2
  | "TRIM" => some 3
  | "BOOST" => some 4
  | "OVERLOAD" => some 5
  | "LOWBATT" => some 6
  | "REPLACEBATT" => some 7
  | "NOBATT" => some 8
  | "SLAVE" => some 9
  | "SLAVEDOWN" => some 10
  | "SHUTTING DOWN" => some 11
  | _ => none

/-- One iteration of the loop of `convert_status`: the token is trimmed, looked up, and
`2 ^ code` is added when it is in the map. -/
def add_status (statuscode : ℕ) (statusstring : String) : ℕ :=
  match status_codes (TrimSpace statusstring) with
  | some status_code_to_add => statuscode + 2 ^ status_code_to_add
  | none => statuscode

/-- The function `convert_status`: the value is trimmed and split on spaces, and the
powers of two of the tokens found in `status_codes` are summed, from 0. -/
def convert_status (value : String) : ℕ :=
  (Split (TrimSpace value) ' ').foldl add_status 0

/-- The function `convert_alarmdel`: a lookup in its map literal; an absent key gives the
zero value. -/
def convert_alarmdel (value : String) : ℕ :=
  match value with
  | "30 Seconds" => 1
  | "Low Battery" => 2
  | "No alarm" => 3
  | "5 Seconds" => 4
  | "Always" => 5
  | _ => 0

/-- The slice `units` of `convert_float64`. -/
def units : List String :=
  [" Minutes", " Seconds", " Percent", " Volts", " Watts", " Hz", " C"]

/-- The loop of `convert_float64` over `units`: `value = strings.TrimRight(value, unit)`
for each unit in turn. -/
def strip_units (value : String) : String :=
  units.foldl TrimRight value

/-- The function `convert_float64`: the units are removed, the rest goes to
`strconv.ParseFloat`, and an error gives 0. -/
def convert_float64 {V : Type} [NatCast V] (ParseFloat : String → Option V)
    (value : String) : V :=
  match ParseFloat (strip_units value) with
  | some numeric_value => numeric_value
  | none => ((0 : ℕ) : V)

/-! ## The metric state -/

/-- The thirty fields of the struct `metrics_t`. -/
inductive MetricField where
  | status | linev | loadpct | bcharge | timeleft | mbattchg | mintimel | maxtime
  | maxlinev | minlinev | outputv | sense | dwake | dshutd | dlowbatt | lotrans
  | hitrans | retpct | itemp | alarmdel | battv | linefreq | tonbatt | nomoutv
  | nombattv | extbatts | badbatts | cumonbatt | humidity | ambtemp
deriving DecidableEq

/-- A `prometheus.Gauge` as the program uses it: the `Name` and `Help` of its
`GaugeOpts`, and the value last `Set`. -/
structure Gauge (V : Type) where
  Name : String
  Help : String
  value : V
deriving DecidableEq

/-- The struct `metrics_t`: one gauge per field, `none` when the field is `nil`. -/
abbrev metrics_t (V : Type) : Type := MetricField → Option (Gauge V)

/-- The global state `update_metrics` works on: the variable `metrics`, and the names of
the gauges handed to `prometheus.MustRegister`, in the order of registration. -/
structure State (V : Type) where
  metrics : metrics_t V
  registered : List String

/-- The state at program start: every field of `metrics` is `nil` and nothing has been
registered. -/
def State.init (V : Type) : State V :=
  ⟨fun _ => none, []⟩

/-- Go's `prometheus.NewGauge`: a gauge with the given options and value 0. -/
def NewGauge {V : Type} [NatCast V] (Name Help : String) : Gauge V :=
  ⟨Name, Help, ((0 : ℕ) : V)⟩

/-- The method `Gauge.Set`. -/
def Gauge.Set {V : Type} (g : Gauge V) (v : V) : Gauge V :=
  { g with value := v }

/-! ## `update_metrics` -/

/-- The `switch entry` of `update_metrics`: for each `case`, the field of `metrics` it
works on, the `Name` and `Help` of the gauge it creates, and the value it sets; `none`
for the `default` case. -/
def switch_entry {V : Type} [NatCast V] (ParseFloat : String → Option V)
    (entry value : String) : Option (MetricField × String × String × V) :=
  match entry with
  | "STATUS" =>
    some (.status, "apcupsd_ups_status",
      "UPS Status. Value 0=error 1=ONLINE, for the rest see documentation",
      (convert_status value : ℕ))
  | "LINEV" =>
    some (.linev, "apcupsd_ups_linev",
      "Current input line voltage",
      convert_float64 ParseFloat value)
  | "LOADPCT" =>
    some (.loadpct, "apcupsd_ups_loadpct",
      "Percentage of UPS load capacity used as estimated by UPS",
      convert_float64 ParseFloat value)
  | "BCHARGE" =>
    some (.bcharge, "apcupsd_ups_bcharge",
      "Current battery capacity charge percentage",
      convert_float64 ParseFloat value)
  | "TIMELEFT" =>
    some (.timeleft, "apcupsd_ups_timeleft",
      "Remaining runtime left on battery as estimated by the UPS",
      convert_float64 ParseFloat value)
  | "MBATTCHG" =>
    some (.mbattchg, "apcupsd_ups_mbattchg",
      "Min battery charge % (BCHARGE) required for system shutdown",
      convert_float64 ParseFloat value)
  | "MINTIMEL" =>
    some (.mintimel, "apcupsd_ups_mintimel",
      "Min battery runtime (MINUTES) required for system shutdown",
      convert_float64 ParseFloat value)
  | "MAXTIME" =>
    some (.maxtime, "apcupsd_ups_maxtime",
      "Max battery runtime (TIMEOUT) after which system is shutdown",
      convert_float64 ParseFloat value)
  | "MAXLINEV" =>
    some (.maxlinev, "apcupsd_ups_maxlinev",
      "Maximum input line voltage since apcupsd started",
      convert_float64 ParseFloat value)
  | "MINLINEV" =>
    some (.minlinev, "apcupsd_ups_minlinev",
      "Min (observed) input line voltage since apcupsd started",
      convert_float64 ParseFloat value)
  | "OUTPUTV" =>
    some (.outputv, "apcupsd_ups_outputv",
      "Current UPS output voltage",
      convert_float64 ParseFloat value)
  | "SENSE" =>
    some (.sense, "apcupsd_ups_sense",
      "Current UPS sensitivity setting for voltage fluctuations",
      convert_float64 ParseFloat value)
  | "DWAKE" =>
    some (.dwake, "apcupsd_ups_dwake",
      "Time UPS waits after power off when the power is restored",
      convert_float64 ParseFloat value)
  | "DSHUTD" =>
    some (.dshutd, "apcupsd_ups_dshutd",
      "Delay before UPS powers down after command received",
      convert_float64 ParseFloat value)
  | "DLOWBATT" =>
    some (.dlowbatt, "apcupsd_ups_dlowbatt",
      "Low battery signal sent when this much runtime remains",
      convert_float64 ParseFloat value)
  | "LOTRANS" =>
    some (.lotrans, "apcupsd_ups_lotrans",
      "Input line voltage below which UPS will switch to battery",
      convert_float64 ParseFloat value)
  | "HITRANS" =>
    some (.hitrans, "apcupsd_ups_hitrans",
      "Input line voltage above which UPS will switch to battery",
      convert_float64 ParseFloat value)
  | "RETPCT" =>
    some (.retpct, "apcupsd_ups_retpct",
      "Battery charge % required after power off to restore power",
      convert_float64 ParseFloat value)
  | "ITEMP" =>
    some (.itemp, "apcupsd_ups_itemp",
      "UPS internal temperature in degrees Celcius",
      convert_float64 ParseFloat value)
  | "ALARMDEL" =>
    some (.alarmdel, "apcupsd_ups_alarmdel",
      "Delay period before UPS starts sounding alarm",
      (convert_alarmdel value : ℕ))
  | "BATTV" =>
    some (.battv, "apcupsd_ups_battv",
      "Current battery voltage",
      convert_float64 ParseFloat value)
  | "LINEFREQ" =>
    some (.linefreq, "apcupsd_ups_linefreq",
      "Current line frequency in Hertz",
      convert_float64 ParseFloat value)
  | "TONBATT" =>
    some (.tonbatt, "apcupsd_ups_tonbatt",
      "Seconds currently on battery",
      convert_float64 ParseFloat value)
  | "NOMOUTV" =>
    some (.nomoutv, "apcupsd_ups_nomoutv",
      "Nominal output voltage to supply when on battery power",
      convert_float64 ParseFloat value)
  | "NOMBATTV" =>
    some (.nombattv, "apcupsd_ups_nombattv",
      "Nominal battery voltage",
      convert_float64 ParseFloat value)
  | "EXTBATTS" =>
    some (.extbatts, "apcupsd_ups_extbatts",
      "Number of external batteries (for XL models)",
      convert_float64 ParseFloat value)
  | "BADBATTS" =>
    some (.badbatts, "apcupsd_ups_badbatts",
      "Number of bad external battery packs (for XL models)",
      convert_float64 ParseFloat value)
  | "CUMONBATT" =>
    some (.cumonbatt, "apcupsd_ups_cumonbatt",
      "Cumulative seconds on battery since apcupsd startup",
      convert_float64 ParseFloat value)
  | "HUMIDITY" =>
    some (.humidity, "apcupsd_ups_humidity",
      "Ambient humidity",
      convert_float64 ParseFloat value)
  | "AMBTEMP" =>
    some (.ambtemp, "apcupsd_ups_ambtemp",
      "Ambient temperature",
      convert_float64 ParseFloat value)
  | _ => none

/-- The body shared by the cases of the switch: the gauge is created and registered if
the field is `nil`, then its value is set. -/
def set_metric {V : Type} [NatCast V] (m : State V)
    (c : MetricField × String × String × V) : State V :=
  match m.metrics c.1 with
  | none =>
    { metrics := Function.update m.metrics c.1
        (some ((NewGauge c.2.1 c.2.2.1 : Gauge V).Set c.2.2.2)),
      registered := m.registered ++ [c.2.1] }
  | some g =>
    { metrics := Function.update m.metrics c.1 (some (g.Set c.2.2.2)),
      registered := m.registered }

/-- The parsing step of the loop body of `update_metrics`: the line is trimmed and split
on colons; exactly two parts give the trimmed `entry` and `value`. -/
def parse_line (line : String) : Option (String × String) :=
  match Split (TrimSpace line) ':' with
  | [entry, value] => some (TrimSpace entry, TrimSpace value)
  | _ => none

/-- The loop body of `update_metrics` for one line of the response. -/
def process_line {V : Type} [NatCast V] (ParseFloat : String → Option V)
    (m : State V) (line : String) : State V :=
  match parse_line line with
  | some (entry, value) =>
    match switch_entry ParseFloat entry value with
    | some c => set_metric m c
    | none => m
  | none => m

/-- The function `update_metrics`, with the string returned by `nis_request()` as an
argument: an empty response is replaced by `"STATUS:COMMLOST"`, and the lines are processed
in order. -/
def update_metrics {V : Type} [NatCast V] (ParseFloat : String → Option V)
    (nis_response : String) (m : State V) : State V :=
  let raw_response := if nis_response.length = 0 then "STATUS:COMMLOST" else nis_response
  (Split raw_response '\n').foldl (process_line ParseFloat) m

/-- The case label of each field in the switch of `update_metrics`: the thirty
supported keys. -/
def MetricField.key : MetricField → String
  | .status => "STATUS"
  | .linev => "LINEV"
  | .loadpct => "LOADPCT"
  | .bcharge => "BCHARGE"
  | .timeleft => "TIMELEFT"
  | .mbattchg => "MBATTCHG"
  | .mintimel => "MINTIMEL"
  | .maxtime => "MAXTIME"
  | .maxlinev => "MAXLINEV"
  | .minlinev => "MINLINEV"
  | .outputv => "OUTPUTV"
  | .sense => "SENSE"
  | .dwake => "DWAKE"
  | .dshutd => "DSHUTD"
  | .dlowbatt => "DLOWBATT"
  | .lotrans => "LOTRANS"
  | .hitrans => "HITRANS"
  | .retpct => "RETPCT"
  | .itemp => "ITEMP"
  | .alarmdel => "ALARMDEL"
  | .battv => "BATTV"
  | .linefreq => "LINEFREQ"
  | .tonbatt => "TONBATT"
  | .nomoutv => "NOMOUTV"
  | .nombattv => "NOMBATTV"
  | .extbatts => "EXTBATTS"
  | .badbatts => "BADBATTS"
  | .cumonbatt => "CUMONBATT"
  | .humidity => "HUMIDITY"
  | .ambtemp => "AMBTEMP"

/-! ## The unit stripping as the specification words it -/

/-- The unit stripping of the specification: the first unit of the table that is an
exact suffix of the value is removed, once; a value that ends in no unit is unchanged. -/
def spec_strip_unit (value : String) : String :=
  match units.find? fun u => u.data.isSuffixOf value.data with
  | some u => ⟨value.data.take (value.data.length - u.data.length)⟩
  | none => value

/-- The numeric converter of the specification: parse-or-zero of the value without its
unit suffix. -/
def spec_convert_float64 {V : Type} [NatCast V] (ParseFloat : String → Option V)
    (value : String) : V :=
  match ParseFloat (spec_strip_unit value) with
  | some numeric_value => numeric_value
  | none => ((0 : ℕ) : V)

/-- The converter the claims name for each key: `convert_status` for STATUS,
`convert_alarmdel` for ALARMDEL, and `convert_float64` for each of the other 28 keys. -/
def field_converter {V : Type} [NatCast V] (ParseFloat : String → Option V) :
    MetricField → String → V
  | .status, value => ((convert_status value : ℕ) : V)
  | .alarmdel, value => ((convert_alarmdel value : ℕ) : V)
  | _, value => convert_float64 ParseFloat value

/-! ## The report as the loop of `update_metrics` sees it -/

/-- The lines the loop of `update_metrics` runs over: the lines of the response, or of
`"STATUS:COMMLOST"` when the response is empty. -/
def report_lines (nis_response : String) : List String :=
  Split (if nis_response.length = 0 then "STATUS:COMMLOST" else nis_response) '\n'

/-- The case of the switch a line reaches, with the value it sets: `none` when the line
is not accepted by the parsing step or its key is none of the case labels. -/
def line_action {V : Type} [NatCast V] (ParseFloat : String → Option V)
    (line : String) : Option (MetricField × String × String × V) :=
  match parse_line line with
  | some (entry, value) => switch_entry ParseFloat entry value
  | none => none

/-- The keys of the lines accepted by the parsing step, in the order of the lines. -/
def accepted_keys (lines : List String) : List String :=
  (lines.filterMap parse_line).map Prod.fst

/-- The tokens `convert_status` looks up: the pieces of the trimmed field between
spaces, each trimmed. -/
def status_tokens (value : String) : List String :=
  (Split (TrimSpace value) ' ').map TrimSpace

/-- Go's `strings.ToLower` on the letters `A` to `Z`. -/
def ToLower (s : String) : String :=
  ⟨s.data.map Char.toLower⟩

/-- The metric name the claims give to a field: `"apcupsd_ups_"` followed by its key in
lower case. -/
def metric_name (f : MetricField) : String :=
  "apcupsd_ups_" ++ ToLower f.key

/-! ## The receive loop of `nis_request`

Bytes are natural numbers, read modulo 256. -/

/-- The connection as the receive loop reads it: the bytes still to come, in the pieces
in which the network delivers them. A call of `conn.Read` returns bytes of the first
piece only; when no piece is left the peer has closed the connection. -/
abbrev Conn : Type := List (List ℕ)

/-- The method `conn.Read(buf)` for a buffer of `n` bytes: the bytes read and the
connection afterwards; `none` is `io.EOF`. At most `n` bytes of the first piece are
returned, a piece without bytes being skipped. -/
def conn_Read : Conn → ℕ → Option (List ℕ) × Conn
  | [], _ => (none, [])
  | [] :: rest, n => conn_Read rest n
  | (b :: bs) :: rest, n =>
    (some ((b :: bs).take n),
      if (b :: bs).drop n = [] then rest else (b :: bs).drop n :: rest)

/-- The conversion `int16(order.Uint16(bs))` of `binary.Read` for big-endian order: the
two bytes as a signed 16-bit number. -/
def int16_BigEndian (hi lo : ℕ) : ℤ :=
  if hi % 256 * 256 + lo % 256 < 32768 then ((hi % 256 * 256 + lo % 256 : ℕ) : ℤ)
  else ((hi % 256 * 256 + lo % 256 : ℕ) : ℤ) - 65536

/-- The call `binary.Read(conn, binary.BigEndian, &length_response)`: `io.ReadFull` of two
bytes, calling `conn.Read` again when the first call returns one byte. `none` is an error
(`io.EOF` or `io.ErrUnexpectedEOF`), on which the variable is not assigned. -/
def binary_Read (conn : Conn) : Option ℤ × Conn :=
  match conn_Read conn 2 with
  | (some [hi, lo], conn) => (some (int16_BigEndian hi lo), conn)
  | (some [hi], conn) =>
    match conn_Read conn 1 with
    | (some [lo], conn) => (some (int16_BigEndian hi lo), conn)
    | (_, conn) => (none, conn)
  | (_, conn) => (none, conn)

/-- How the receive loop ends: it returns `ServerResponse`, leaving the rest of the
connection unread; or `make([]byte, length_response)` panics on a negative length; or the
fuel of the model runs out. -/
inductive RecvResult where
  | returned (ServerResponse : List ℕ) (conn : Conn)
  | panicked
  | out_of_fuel
deriving DecidableEq

/-- The loop `for { ... }` of `nis_request`, with the variables `length_response` and
`ServerResponse` as arguments. An error of `binary.Read` is logged and the loop goes on
with the old `length_response`; the loop ends on a zero length or on an error of
`conn.Read`. -/
def receive_loop : ℕ → Conn → ℤ → List ℕ → RecvResult
  | 0, _, _, _ => RecvResult.out_of_fuel
  | fuel + 1, conn, length_response, ServerResponse =>
    match binary_Read conn with
    | (r, conn) =>
      if r.getD length_response = 0 then RecvResult.returned ServerResponse conn
      else if r.getD length_response < 0 then RecvResult.panicked
      else
        match conn_Read conn (r.getD length_response).toNat with
        | (none, conn) => RecvResult.returned ServerResponse conn
        | (some recv_buffer, conn) =>
          receive_loop fuel conn (r.getD length_response) (ServerResponse ++ recv_buffer)

/-- The number of bytes still to come. -/
def conn_size (conn : Conn) : ℕ :=
  (conn.map List.length).sum

/-- The receive part of `nis_request`: the loop from `length_response = 0` and an empty
`ServerResponse`. Every turn of the loop but the last takes bytes from the connection,
so one more turn than there are bytes is enough fuel. -/
def nis_request_receive (conn : Conn) : RecvResult :=
  receive_loop (conn_size conn + 1) conn 0 []

/-! ## Response streams and their delivery -/

/-- A response frame of the wire protocol: the length of the payload on two bytes,
big-endian, then the payload. -/
def frame (chunk : List ℕ) : List ℕ :=
  chunk.length / 256 :: chunk.length % 256 :: chunk

/-- Bytes put in front of a connection, in the piece that follows them. -/
def glue (bytes : List ℕ) : Conn → Conn
  | [] => [bytes]
  | piece :: rest => (bytes ++ piece) :: rest

/-- Bytes put in front of a connection: as a piece of their own when `cut` is set, in the
piece that follows them when it is not. -/
def attach (cut : Bool) (bytes : List ℕ) (conn : Conn) : Conn :=
  if cut then bytes :: conn else glue bytes conn

/-- A frame put in front of a connection. The three flags say where a piece ends: between
the two bytes of the length, between the length and the payload, after the payload. The
payload itself is never cut. -/
def deliver_frame (cuts : Bool × Bool × Bool) (chunk : List ℕ) (conn : Conn) : Conn :=
  attach cuts.1 [chunk.length / 256]
    (attach cuts.2.1 [chunk.length % 256] (attach cuts.2.2 chunk conn))

/-- A sequence of frames, each with its flags, put in front of a connection. -/
def deliver (frames : List ((Bool × Bool × Bool) × List ℕ)) (conn : Conn) : Conn :=
  frames.foldr (fun f rest => deliver_frame f.1 f.2 rest) conn

/-! ## A reference instance of the parameters

`ParseFloat` is a parameter of the development.  To evaluate the definitions on concrete
reports, `refParseFloat` reads the plain decimal literals `digits` and `digits.digits`
and the spellings of `NaN`, on which it agrees with `strconv.ParseFloat`, and rejects
every other string; `RefFloat.dec m k` denotes the `float64` nearest to `m / 10 ^ k`. -/

/-- Values of the reference parser: a decimal `mantissa / 10 ^ scale` without
trailing zeros in its fraction, or NaN. -/
inductive RefFloat where
  | dec (mantissa scale : ℕ)
  | nan
deriving DecidableEq

instance : NatCast RefFloat := ⟨fun n => RefFloat.dec n 0⟩

/-- The number written by a non-empty list of decimal digits. -/
def digitsToNat : List Char → Option ℕ
  | [] => none
  | cs =>
    cs.foldl
      (fun acc c => acc.bind fun n => if c.isDigit then some (10 * n + (c.toNat - 48)) else none)
      (some 0)

/-- The reference parser: `"nan"` in any case, `digits`, or `digits.digits`. -/
def refParseFloat (s : String) : Option RefFloat :=
  if s.data.map Char.toLower = ['n', 'a', 'n'] then some RefFloat.nan
  else
    match s.data.splitOn '.' with
    | [i] => (digitsToNat i).map fun n => RefFloat.dec n 0
    | [i, f] =>
      match digitsToNat i, digitsToNat f with
      | some _, some _ =>
        (digitsToNat (i ++ f.rdropWhile (· = '0'))).map fun n =>
          RefFloat.dec n (f.rdropWhile (· = '0')).length
      | _, _ => none
    | _ => none

/-! # Theorems -/

/-! ## Lists: trimming and splitting -/

theorem TrimSpace_data (s : String) : (TrimSpace s).data = trimChars s.data := rfl

theorem dropWhile_append_of_eq_nil {p : Char → Bool} :
    ∀ (l s : List Char), l.dropWhile p = [] → (l ++ s).dropWhile p = s.dropWhile p
  | [], _, _ => rfl
  | c :: r, s, h => by
    by_cases hc : p c = true
    · have hr : r.dropWhile p = [] := by simpa [List.dropWhile, hc] using h
      simpa [List.dropWhile, hc] using dropWhile_append_of_eq_nil r s hr
    · simp [List.dropWhile, hc] at h

theorem dropWhile_append_of_ne_nil {p : Char → Bool} :
    ∀ (l s : List Char), l.dropWhile p ≠ [] → (l ++ s).dropWhile p = l.dropWhile p ++ s
  | [], _, h => absurd rfl h
  | c :: r, s, h => by
    by_cases hc : p c = true
    · have hr : r.dropWhile p ≠ [] := by simpa [List.dropWhile, hc] using h
      simpa [List.dropWhile, hc] using dropWhile_append_of_ne_nil r s hr
    · simp [List.dropWhile, hc]

theorem dropWhile_rdropWhile_comm (p : Char → Bool) (l : List Char) :
    (l.rdropWhile p).dropWhile p = (l.dropWhile p).rdropWhile p := by
  induction l using List.reverseRecOn with
  | nil => simp
  | append_singleton r c ih =>
    by_cases hc : p c = true
    · rw [List.rdropWhile_concat_pos _ _ _ hc, ih]
      by_cases hr : r.dropWhile p = []
      · rw [dropWhile_append_of_eq_nil r [c] hr, hr]
        simp [List.dropWhile, hc]
      · rw [dropWhile_append_of_ne_nil r [c] hr, List.rdropWhile_concat_pos _ _ _ hc]
    · rw [List.rdropWhile_concat_neg _ _ _ hc]
      by_cases hr : r.dropWhile p = []
      · rw [dropWhile_append_of_eq_nil r [c] hr]
        simp [List.dropWhile, hc, List.rdropWhile_singleton]
      · rw [dropWhile_append_of_ne_nil r [c] hr, List.rdropWhile_concat_neg _ _ _ hc]

theorem trimChars_eq (l : List Char) :
    trimChars l = (l.rdropWhile isSpace).dropWhile isSpace :=
  (dropWhile_rdropWhile_comm isSpace l).symm

theorem trimChars_cons_space (c : Char) (l : List Char) (hc : isSpace c = true) :
    trimChars (c :: l) = trimChars l := by
  simp [trimChars, List.dropWhile, hc]

theorem trimChars_concat_space (c : Char) (l : List Char) (hc : isSpace c = true) :
    trimChars (l ++ [c]) = trimChars l := by
  rw [trimChars_eq, trimChars_eq, List.rdropWhile_concat_pos _ _ _ hc]

theorem dropWhile_idem (p : Char → Bool) (l : List Char) :
    (l.dropWhile p).dropWhile p = l.dropWhile p := by
  induction l with
  | nil => rfl
  | cons c r ih =>
    by_cases hc : p c = true
    · simpa [List.dropWhile, hc] using ih
    · simp [List.dropWhile, hc]

theorem trimChars_dropWhile (l : List Char) :
    trimChars (l.dropWhile isSpace) = trimChars l := by
  simp [trimChars, dropWhile_idem]

theorem trimChars_rdropWhile (l : List Char) :
    trimChars (l.rdropWhile isSpace) = trimChars l := by
  rw [trimChars_eq, trimChars_eq, List.rdropWhile_idempotent]

theorem trimChars_trimChars (l : List Char) : trimChars (trimChars l) = trimChars l := by
  show trimChars ((l.dropWhile isSpace).rdropWhile isSpace) = trimChars l
  rw [trimChars_rdropWhile, trimChars_dropWhile]

theorem trimChars_of_all_space (l : List Char) (h : ∀ c ∈ l, isSpace c = true) :
    trimChars l = [] := by
  have : l.dropWhile isSpace = [] := by simpa using h
  simp [trimChars, this]

theorem splitOn_cons (a c : Char) (l : List Char) :
    (c :: l).splitOn a =
      if c = a then [] :: l.splitOn a else (l.splitOn a).modifyHead (List.cons c) := by
  simp [List.splitOn, List.splitOnP_cons]

theorem splitOn_ne_nil (a : Char) (l : List Char) : l.splitOn a ≠ [] :=
  List.splitOnP_ne_nil _ _

theorem length_splitOn (a : Char) (l : List Char) :
    (l.splitOn a).length = l.count a + 1 := by
  induction l with
  | nil => rfl
  | cons c r ih =>
    rw [splitOn_cons]
    by_cases hc : c = a
    · subst hc; simp [ih]
    · have hne : (c == a) = false := by simpa using hc
      rw [if_neg hc, List.count_cons, hne]
      cases hs : r.splitOn a with
      | nil => exact absurd hs (splitOn_ne_nil a r)
      | cons h t => rw [hs] at ih; simpa [List.modifyHead] using ih

theorem splitOn_of_not_mem (a : Char) (l : List Char) (h : a ∉ l) : l.splitOn a = [l] := by
  refine List.splitOnP_eq_single _ _ ?_
  intro x hx hxa
  have : x = a := by simpa using hxa
  exact h (this ▸ hx)

theorem splitOn_append_cons (a : Char) (x y : List Char) (hx : a ∉ x) :
    (x ++ a :: y).splitOn a = x :: y.splitOn a := by
  refine List.splitOnP_first _ _ ?_ a (by simp) y
  intro c hc hca
  have : c = a := by simpa using hca
  exact hx (this ▸ hc)

/-- Splitting a list extended by one character at the end: the last piece grows, or a
new empty piece is added. -/
theorem splitOn_concat (a : Char) (l : List Char) :
    ∃ init last, l.splitOn a = init ++ [last] ∧
      (∀ c, c ≠ a → (l ++ [c]).splitOn a = init ++ [last ++ [c]]) ∧
      (l ++ [a]).splitOn a = init ++ [last, []] := by
  induction l with
  | nil =>
    refine ⟨[], [], rfl, ?_, ?_⟩
    · intro c hc
      simp [splitOn_cons, hc, List.modifyHead]
    · simp [splitOn_cons, List.modifyHead]
  | cons d r ih =>
    obtain ⟨init, last, h1, h2, h3⟩ := ih
    by_cases hd : d = a
    · subst hd
      refine ⟨[] :: init, last, ?_, ?_, ?_⟩
      · simp [splitOn_cons, h1]
      · intro c hc
        simp [splitOn_cons, h2 c hc]
      · simp [splitOn_cons, h3]
    · cases init with
      | nil =>
        refine ⟨[], d :: last, ?_, ?_, ?_⟩
        · simp [splitOn_cons, hd, h1, List.modifyHead]
        · intro c hc
          simp [splitOn_cons, hd, h2 c hc, List.modifyHead]
        · simp [splitOn_cons, hd, h3, List.modifyHead]
      | cons i is =>
        refine ⟨(d :: i) :: is, last, ?_, ?_, ?_⟩
        · simp [splitOn_cons, hd, h1, List.modifyHead]
        · intro c hc
          simp [splitOn_cons, hd, h2 c hc, List.modifyHead]
        · simp [splitOn_cons, hd, h3, List.modifyHead]

/-! ## `convert_status` as a sum over the pieces of the field -/

theorem add_status_eq (statuscode : ℕ) (statusstring : String) :
    add_status statuscode statusstring = statuscode + add_status 0 statusstring := by
  unfold add_status
  cases status_codes (TrimSpace statusstring) <;> simp

theorem foldl_add_status (l : List String) (n : ℕ) :
    l.foldl add_status n = n + (l.map (add_status 0)).sum := by
  induction l generalizing n with
  | nil => simp
  | cons s t ih => rw [List.foldl_cons, ih, add_status_eq, List.map_cons, List.sum_cons, add_assoc]

theorem add_status_congr (s t : List Char) (h : trimChars s = trimChars t) :
    add_status 0 ⟨s⟩ = add_status 0 ⟨t⟩ := by
  have : TrimSpace ⟨s⟩ = TrimSpace ⟨t⟩ := by simp [TrimSpace, h]
  simp [add_status, this]

theorem add_status_nil : add_status 0 "" = 0 := by decide

/-- The sum computed by `convert_status` on an untrimmed character list. -/
theorem convert_status_eq_sum (value : String) :
    convert_status value =
      (((trimChars value.data).splitOn ' ').map fun p => add_status 0 ⟨p⟩).sum := by
  simp [convert_status, Split, foldl_add_status, TrimSpace, List.map_map, Function.comp_def]

theorem sum_pieces_dropWhile (l : List Char) :
    (((l.dropWhile isSpace).splitOn ' ').map fun p => add_status 0 ⟨p⟩).sum =
      ((l.splitOn ' ').map fun p => add_status 0 ⟨p⟩).sum := by
  induction l with
  | nil => rfl
  | cons c r ih =>
    by_cases hc : isSpace c = true
    · rw [List.dropWhile_cons_of_pos hc, ih, splitOn_cons]
      by_cases hsp : c = ' '
      · simp [hsp, add_status_nil]
      · rw [if_neg hsp]
        cases hs : r.splitOn ' ' with
        | nil => exact absurd hs (splitOn_ne_nil _ r)
        | cons h t =>
          simp only [List.modifyHead, List.map_cons, List.sum_cons]
          rw [add_status_congr (c :: h) h (trimChars_cons_space c h hc)]
    · rw [List.dropWhile_cons_of_neg hc]

theorem sum_pieces_rdropWhile (l : List Char) :
    (((l.rdropWhile isSpace).splitOn ' ').map fun p => add_status 0 ⟨p⟩).sum =
      ((l.splitOn ' ').map fun p => add_status 0 ⟨p⟩).sum := by
  induction l using List.reverseRecOn with
  | nil => rfl
  | append_singleton r c ih =>
    by_cases hc : isSpace c = true
    · rw [List.rdropWhile_concat_pos _ _ _ hc, ih]
      obtain ⟨init, last, h1, h2, h3⟩ := splitOn_concat ' ' r
      by_cases hsp : c = ' '
      · subst hsp
        rw [h1, h3]
        simp [add_status_nil]
      · rw [h1, h2 c hsp]
        simp only [List.map_append, List.map_cons, List.map_nil, List.sum_append, List.sum_cons]
        rw [add_status_congr (last ++ [c]) last (trimChars_concat_space c last hc)]
    · rw [List.rdropWhile_concat_neg _ _ _ hc]

/-- The initial `TrimSpace` of `convert_status` does not change the sum. -/
theorem convert_status_eq_sum_pieces (value : String) :
    convert_status value = ((value.data.splitOn ' ').map fun p => add_status 0 ⟨p⟩).sum := by
  rw [convert_status_eq_sum, trimChars, sum_pieces_rdropWhile, sum_pieces_dropWhile]

theorem convert_status_token (t : String) (h : ' ' ∉ t.data) :
    convert_status t = add_status 0 t := by
  rw [convert_status_eq_sum_pieces, splitOn_of_not_mem _ _ h]
  simp

theorem convert_status_Join (tokens : List String) (h : ∀ t ∈ tokens, ' ' ∉ t.data) :
    convert_status (Join tokens " ") = (tokens.map convert_status).sum := by
  have hmap : tokens.map convert_status = tokens.map (add_status 0) :=
    List.map_congr_left fun t ht => convert_status_token t (h t ht)
  rw [convert_status_eq_sum_pieces, hmap]
  by_cases hnil : tokens = []
  · subst hnil
    decide
  · have hsplit : ((Join tokens " ").data).splitOn ' ' = tokens.map String.data := by
      refine List.splitOn_intercalate _ ' ' ?_ (by simpa using hnil)
      intro l hl
      obtain ⟨t, ht, rfl⟩ := List.mem_map.mp hl
      exact h t ht
    rw [hsplit, List.map_map]
    rfl

/-! ## The parsing step and the dispatch -/

theorem dropWhile_append_cons_neg {p : Char → Bool} (x y : List Char) (c : Char)
    (hc : ¬ p c = true) : (x ++ c :: y).dropWhile p = x.dropWhile p ++ c :: y := by
  by_cases hx : x.dropWhile p = []
  · rw [dropWhile_append_of_eq_nil x _ hx, hx, List.dropWhile_cons_of_neg hc]
    rfl
  · exact dropWhile_append_of_ne_nil x _ hx

theorem rdropWhile_append_cons_neg {p : Char → Bool} (x y : List Char) (c : Char)
    (hc : ¬ p c = true) : (x ++ c :: y).rdropWhile p = x ++ c :: y.rdropWhile p := by
  have h := dropWhile_append_cons_neg (p := p) y.reverse x.reverse c hc
  simp only [List.rdropWhile, List.reverse_append, List.reverse_cons, List.append_assoc,
    List.singleton_append, h, List.reverse_reverse]

theorem trimChars_append_cons (x y : List Char) (c : Char) (hc : ¬ isSpace c = true) :
    trimChars (x ++ c :: y) = x.dropWhile isSpace ++ c :: y.rdropWhile isSpace := by
  rw [trimChars, dropWhile_append_cons_neg x y c hc, rdropWhile_append_cons_neg _ y c hc]

theorem parse_line_isSome_iff (line : String) :
    (parse_line line).isSome = true ↔ (TrimSpace line).data.count ':' = 1 := by
  have hlen := length_splitOn ':' (TrimSpace line).data
  unfold parse_line Split
  rcases hs : (TrimSpace line).data.splitOn ':' with _ | ⟨a, _ | ⟨b, _ | ⟨c, t⟩⟩⟩ <;>
    rw [hs] at hlen <;> simp at hlen ⊢ <;> omega

theorem parse_line_eq_none (line : String) (h : (TrimSpace line).data.count ':' ≠ 1) :
    parse_line line = none := by
  have := (parse_line_isSome_iff line).not.mpr h
  simpa using this

theorem parse_line_one_colon (before after : String) (hb : ':' ∉ before.data)
    (ha : ':' ∉ after.data) :
    parse_line (before ++ ":" ++ after) = some (TrimSpace before, TrimSpace after) := by
  have hdata : (before ++ ":" ++ after).data = before.data ++ ':' :: after.data := by
    simp [String.data_append]
  have hb2 : ':' ∉ before.data.dropWhile isSpace :=
    fun h => hb ((List.dropWhile_suffix _).subset h)
  have ha2 : ':' ∉ after.data.rdropWhile isSpace :=
    fun h => ha ((List.rdropWhile_prefix _ _).subset h)
  have hsplit : (TrimSpace (before ++ ":" ++ after)).data.splitOn ':' =
      [before.data.dropWhile isSpace, after.data.rdropWhile isSpace] := by
    rw [TrimSpace_data, hdata, trimChars_append_cons _ _ _ (by decide),
      splitOn_append_cons _ _ _ hb2, splitOn_of_not_mem _ _ ha2]
  unfold parse_line Split
  rw [hsplit]
  simp [TrimSpace, trimChars_dropWhile, trimChars_rdropWhile]

theorem set_metric_self {V : Type} [NatCast V] (m : State V) (f : MetricField)
    (n h : String) (v : V) :
    ∃ g, (set_metric m (f, n, h, v)).metrics f = some g ∧ g.value = v := by
  unfold set_metric
  cases hm : m.metrics f with
  | none => exact ⟨(NewGauge n h : Gauge V).Set v, by simp, rfl⟩
  | some g => exact ⟨g.Set v, by simp, rfl⟩

theorem set_metric_other {V : Type} [NatCast V] (m : State V) (f f' : MetricField)
    (n h : String) (v : V) (hne : f' ≠ f) :
    (set_metric m (f, n, h, v)).metrics f' = m.metrics f' := by
  unfold set_metric
  cases hm : m.metrics f <;> simp [Function.update_noteq hne]

/-- The case of the switch selected by the key of a field: it works on that field, and
sets the value of the converter the claim names for it. -/
theorem switch_entry_key {V : Type} [NatCast V] (ParseFloat : String → Option V)
    (f : MetricField) (value : String) :
    ∃ n h, switch_entry ParseFloat f.key value =
      some (f, n, h, field_converter ParseFloat f value) := by
  cases f <;> exact ⟨_, _, rfl⟩

theorem update_metrics_single_line {V : Type} [NatCast V] (ParseFloat : String → Option V)
    (m : State V) (line : String) (hne : line.data ≠ []) (hnl : '\n' ∉ line.data) :
    update_metrics ParseFloat line m = process_line ParseFloat m line := by
  have hlen : line.length ≠ 0 := by
    intro h0
    exact hne (List.length_eq_zero.mp h0)
  simp [update_metrics, hlen, Split, splitOn_of_not_mem _ _ hnl]


theorem count_dropWhile_of_not (p : Char → Bool) (a : Char) (ha : ¬ p a = true)
    (l : List Char) : (l.dropWhile p).count a = l.count a := by
  induction l with
  | nil => rfl
  | cons c r ih =>
    by_cases hc : p c = true
    · have hca : (c == a) = false := by
        simp only [beq_eq_false_iff_ne]
        rintro rfl
        exact ha hc
      rw [List.dropWhile_cons_of_pos hc, ih, List.count_cons, hca]
      simp
    · rw [List.dropWhile_cons_of_neg hc]

theorem count_colon_TrimSpace (line : String) :
    (TrimSpace line).data.count ':' = line.data.count ':' := by
  rw [TrimSpace_data, trimChars, List.rdropWhile, List.count_reverse,
    count_dropWhile_of_not isSpace ':' (by decide), List.count_reverse,
    count_dropWhile_of_not isSpace ':' (by decide)]

/-! ## The unit loop on a number followed by a unit -/

theorem rdropWhile_append_of_self {p : Char → Bool} (x w : List Char)
    (hx : x.rdropWhile p = x) : (x ++ w).rdropWhile p = x ++ w.rdropWhile p := by
  induction w using List.reverseRecOn with
  | nil => simpa using hx
  | append_singleton r c ih =>
    by_cases hc : p c = true
    · rw [← List.append_assoc, List.rdropWhile_concat_pos _ _ _ hc,
        List.rdropWhile_concat_pos _ _ _ hc, ih]
    · rw [← List.append_assoc, List.rdropWhile_concat_neg _ _ _ hc,
        List.rdropWhile_concat_neg _ _ _ hc, List.append_assoc]

theorem foldl_TrimRight_append (cutsets : List String) (x w : List Char)
    (hx : ∀ cutset ∈ cutsets, (x.rdropWhile fun c => decide (c ∈ cutset.data)) = x) :
    (cutsets.foldl TrimRight ⟨x ++ w⟩).data = x ++ (cutsets.foldl TrimRight ⟨w⟩).data := by
  induction cutsets generalizing w with
  | nil => rfl
  | cons cutset rest ih =>
    have h1 : TrimRight ⟨x ++ w⟩ cutset =
        ⟨x ++ w.rdropWhile fun c => decide (c ∈ cutset.data)⟩ := by
      simp only [TrimRight]
      rw [rdropWhile_append_of_self x w (hx cutset (List.mem_cons_self _ _))]
    rw [List.foldl_cons, h1, ih _ fun cs hcs => hx cs (List.mem_cons_of_mem _ hcs)]
    rfl

theorem rdropWhile_cutset_self (n : String) (c : Char)
    (hlast : n.data.getLast? = some c) (hc : c.isDigit = true ∨ c = '.') :
    ∀ cutset ∈ units, (n.data.rdropWhile fun d => decide (d ∈ cutset.data)) = n.data := by
  intro cutset hcut
  rw [List.rdropWhile_eq_self_iff]
  intro hne
  have hl : n.data.getLast hne = c := by
    rw [List.getLast?_eq_getLast _ hne] at hlast
    exact Option.some.inj hlast
  rw [hl]
  have hall : ∀ cutset ∈ units, ∀ d ∈ cutset.data, d.isDigit = false ∧ d ≠ '.' := by
    decide
  intro hmem
  have hmem2 : c ∈ cutset.data := by simpa using hmem
  have hd := hall cutset hcut c hmem2
  rcases hc with hc | hc
  · rw [hc] at hd; exact absurd hd.1 (by simp)
  · exact hd.2 hc

/-- A value that ends in a decimal digit or a point, followed by a unit of the table:
the unit loop removes the unit and nothing else. -/
theorem strip_units_append_unit (n u : String) (c : Char) (hu : u ∈ units)
    (hlast : n.data.getLast? = some c) (hc : c.isDigit = true ∨ c = '.') :
    strip_units (n ++ u) = n := by
  have hzero : ∀ u ∈ units, (units.foldl TrimRight ⟨u.data⟩).data = [] := by decide
  apply String.ext
  rw [strip_units, show (n ++ u) = ⟨n.data ++ u.data⟩ from rfl,
    foldl_TrimRight_append units n.data u.data (rdropWhile_cutset_self n c hlast hc),
    hzero u hu, List.append_nil]

/-- A value that ends in a decimal digit or a point is left as it is by the unit loop. -/
theorem strip_units_number (n : String) (c : Char)
    (hlast : n.data.getLast? = some c) (hc : c.isDigit = true ∨ c = '.') :
    strip_units n = n := by
  have hnil : (units.foldl TrimRight ⟨[]⟩).data = [] := by decide
  apply String.ext
  rw [strip_units, show n = ⟨n.data ++ []⟩ by simp,
    foldl_TrimRight_append units n.data [] (rdropWhile_cutset_self n c hlast hc), hnil]

/-- For a string that parses and ends in a decimal digit or a point, `convert_float64`
gives its value with and without a unit of the table after it. -/
theorem convert_float64_number_unit {V : Type} [NatCast V] (ParseFloat : String → Option V)
    (n u : String) (x : V) (c : Char) (hparse : ParseFloat n = some x) (hu : u ∈ units)
    (hlast : n.data.getLast? = some c) (hc : c.isDigit = true ∨ c = '.') :
    convert_float64 ParseFloat (n ++ u) = x ∧ convert_float64 ParseFloat n = x := by
  simp [convert_float64, strip_units_append_unit n u c hu hlast hc,
    strip_units_number n c hlast hc, hparse]

/-! ## The status converter (C2, C3, C4) -/

/-- C2: each of the eleven one-word tokens of the status table, alone in the field, gives
`2 ^ bit`; the token `"SHUTTING DOWN"` (bit 11) alone gives 0 and not `2 ^ 11`, because the
field is split on spaces before the lookup. -/
theorem convert_status_single_token :
    convert_status "SHUTTING DOWN" = 0 ∧ status_codes "SHUTTING DOWN" = some 11 ∧
    convert_status "ONLINE" = 2 ^ 0 ∧ convert_status "ONBATT" = 2 ^ 1 ∧
    convert_status "CAL" = 2 ^ 2 ∧ convert_status "TRIM" = 2 ^ 3 ∧
    convert_status "BOOST" = 2 ^ 4 ∧ convert_status "OVERLOAD" = 2 ^ 5 ∧
    convert_status "LOWBATT" = 2 ^ 6 ∧ convert_status "REPLACEBATT" = 2 ^ 7 ∧
    convert_status "NOBATT" = 2 ^ 8 ∧ convert_status "SLAVE" = 2 ^ 9 ∧
    convert_status "SLAVEDOWN" = 2 ^ 10 := by
  decide

/-- C3, as stated: `convert_status` does not return 0 on the field `"ONLINE"`. -/
theorem convert_status_online_ne_zero : ¬ (convert_status "ONLINE" = 0) := by
  decide

/-- C3, amended: `convert_status` returns 1 on the field `"ONLINE"`, the power of two of
bit 0. -/
theorem convert_status_online : convert_status "ONLINE" = 1 := by
  decide

/-- C4: for tokens without a space, `convert_status` of any permutation of the tokens
joined by single spaces is the sum of `convert_status` of each token alone. -/
theorem convert_status_additive (tokens permuted : List String)
    (hperm : permuted.Perm tokens) (hsp : ∀ t ∈ tokens, ' ' ∉ t.data) :
    convert_status (Join permuted " ") = (tokens.map convert_status).sum := by
  rw [convert_status_Join permuted fun t ht => hsp t (hperm.subset ht)]
  exact (hperm.map convert_status).sum_eq

/-- C4 at `"ONBATT LOWBATT"` and `"LOWBATT ONBATT"`: both give `2 + 64 = 66`. -/
theorem convert_status_additive_witness :
    Join ["LOWBATT", "ONBATT"] " " = "LOWBATT ONBATT" ∧
    convert_status "ONBATT LOWBATT" = 66 ∧
    convert_status (Join ["LOWBATT", "ONBATT"] " ") =
      (["ONBATT", "LOWBATT"].map convert_status).sum ∧
    (["ONBATT", "LOWBATT"].map convert_status).sum = 2 + 64 :=
  ⟨by decide, by decide,
    convert_status_additive ["ONBATT", "LOWBATT"] ["LOWBATT", "ONBATT"]
      (List.Perm.swap _ _ _) (by decide),
    by decide⟩

/-! ## The numeric converter (C5, C6, C7) -/

/-- C5 at the value `"12 s"`: no unit of the table is a suffix, so the specification
leaves the value as it is and gives 0; `convert_float64` trims the characters of the
cutset `" Minutes"` and gives 12. -/
theorem convert_float64_trims_cutset :
    spec_strip_unit "12 s" = "12 s" ∧ strip_units "12 s" = "12" ∧
    spec_convert_float64 refParseFloat "12 s" = ((0 : ℕ) : RefFloat) ∧
    convert_float64 refParseFloat "12 s" = ((12 : ℕ) : RefFloat) := by
  decide

/-- C6 at `n = "nan"`, `u = " Minutes"`: `n` parses as NaN, and `convert_float64` gives 0
on `n ++ u` and on `n`, the trimming by cutsets having removed letters of `n`. -/
theorem convert_float64_nan_unit :
    refParseFloat "nan" = some RefFloat.nan ∧ " Minutes" ∈ units ∧
    strip_units ("nan" ++ " Minutes") = "n" ∧
    convert_float64 refParseFloat ("nan" ++ " Minutes") = ((0 : ℕ) : RefFloat) ∧
    convert_float64 refParseFloat "nan" = ((0 : ℕ) : RefFloat) := by
  decide

/-- C7 at the raw value `"12 s"`: what is left after the unit suffix is stripped is
`"12 s"` itself, which does not parse, yet `convert_float64` returns 12 and not 0, the
trimming by cutsets having removed `" s"` before the parse. On `"N/A"`, which no cutset
touches, the result is 0 as the claim says. -/
theorem convert_float64_unparsed_remainder :
    spec_strip_unit "12 s" = "12 s" ∧ refParseFloat (spec_strip_unit "12 s") = none ∧
    convert_float64 refParseFloat "12 s" = ((12 : ℕ) : RefFloat) ∧
    convert_float64 refParseFloat "12 s" ≠ ((0 : ℕ) : RefFloat) ∧
    spec_strip_unit "N/A" = "N/A" ∧ refParseFloat (spec_strip_unit "N/A") = none ∧
    convert_float64 refParseFloat "N/A" = ((0 : ℕ) : RefFloat) := by
  decide

/-! ## The enumerated converter (C8) -/

/-- C8: `convert_alarmdel` returns 1 to 5 on exactly the five strings of its table and 0
on every other string; so on the empty string and on table strings in another case or
with white space around them. -/
theorem convert_alarmdel_exact :
    (∀ value : String,
      (convert_alarmdel value = 1 ↔ value = "30 Seconds") ∧
      (convert_alarmdel value = 2 ↔ value = "Low Battery") ∧
      (convert_alarmdel value = 3 ↔ value = "No alarm") ∧
      (convert_alarmdel value = 4 ↔ value = "5 Seconds") ∧
      (convert_alarmdel value = 5 ↔ value = "Always") ∧
      (convert_alarmdel value = 0 ↔
        value ∉ ["30 Seconds", "Low Battery", "No alarm", "5 Seconds", "Always"])) ∧
    convert_alarmdel "" = 0 ∧ convert_alarmdel "always" = 0 ∧
    convert_alarmdel "ALWAYS" = 0 ∧ convert_alarmdel " Always" = 0 ∧
    convert_alarmdel "Always " = 0 ∧ convert_alarmdel "30 seconds" = 0 ∧
    convert_alarmdel "30  Seconds" = 0 := by
  refine ⟨?_, by decide, by decide, by decide, by decide, by decide, by decide, by decide⟩
  intro value
  unfold convert_alarmdel
  split <;> simp_all

/-! ## The report parser and the projection (C1, C9, C10) -/

/-- C1: for a line with exactly one colon whose trimmed key is the key of a field, the
loop body of `update_metrics` leaves that field holding a gauge whose value is the
converter of the field applied to the trimmed value: `convert_status` for STATUS,
`convert_alarmdel` for ALARMDEL, `convert_float64` for the other 28 keys. The state before
is arbitrary, so the value is overwritten whether or not the gauge existed. The same
holds for `update_metrics` on a report made of that line alone. -/
theorem update_metrics_sets_metric {V : Type} [NatCast V] (ParseFloat : String → Option V)
    (m : State V) (before after : String) (f : MetricField)
    (hb : ':' ∉ before.data) (ha : ':' ∉ after.data) (hkey : TrimSpace before = f.key) :
    (∃ g, (process_line ParseFloat m (before ++ ":" ++ after)).metrics f = some g ∧
      g.value = field_converter ParseFloat f (TrimSpace after)) ∧
    ('\n' ∉ before.data → '\n' ∉ after.data →
      update_metrics ParseFloat (before ++ ":" ++ after) m =
        process_line ParseFloat m (before ++ ":" ++ after)) := by
  constructor
  · obtain ⟨n, h, hsw⟩ := switch_entry_key ParseFloat f (TrimSpace after)
    unfold process_line
    rw [parse_line_one_colon before after hb ha]
    simp only [hkey, hsw]
    exact set_metric_self m f n h _
  · intro hnb hna
    refine update_metrics_single_line ParseFloat m _ ?_ ?_
    · simp [String.data_append]
    · simp [String.data_append, hnb, hna]

/-- C1 on the line `"LINEV    : 230.1 Volts"` from the initial state. -/
theorem update_metrics_sets_metric_witness :
    TrimSpace "LINEV    " = MetricField.linev.key ∧
    (∃ g, (process_line refParseFloat (State.init RefFloat)
        ("LINEV    " ++ ":" ++ " 230.1 Volts")).metrics MetricField.linev = some g ∧
      g.value = field_converter refParseFloat MetricField.linev (TrimSpace " 230.1 Volts")) ∧
    field_converter refParseFloat MetricField.linev (TrimSpace " 230.1 Volts") =
      RefFloat.dec 2301 1 :=
  ⟨by decide,
    (update_metrics_sets_metric refParseFloat (State.init RefFloat) "LINEV    "
      " 230.1 Volts" MetricField.linev (by decide) (by decide) (by decide)).1,
    by decide⟩

/-- C9: the parsing step yields a field exactly when the trimmed line has one colon;
for a line `before:after` with no other colon the field is the trimmed `before` and the
trimmed `after`; a line whose colon count is not one yields nothing and leaves the state
as it was. -/
theorem parse_line_spec :
    (∀ line : String,
      (parse_line line).isSome = true ↔ (TrimSpace line).data.count ':' = 1) ∧
    (∀ line : String, (TrimSpace line).data.count ':' = line.data.count ':') ∧
    (∀ before after : String, ':' ∉ before.data → ':' ∉ after.data →
      parse_line (before ++ ":" ++ after) = some (TrimSpace before, TrimSpace after)) ∧
    (∀ (V : Type) [NatCast V] (ParseFloat : String → Option V) (m : State V)
      (line : String), line.data.count ':' ≠ 1 →
      parse_line line = none ∧ process_line ParseFloat m line = m) := by
  refine ⟨parse_line_isSome_iff, count_colon_TrimSpace, parse_line_one_colon, ?_⟩
  intro V _ ParseFloat m line h
  have hnone : parse_line line = none :=
    parse_line_eq_none line (by rwa [count_colon_TrimSpace])
  exact ⟨hnone, by simp [process_line, hnone]⟩

/-- C10: on the empty response `update_metrics` does what it does on the report
`"STATUS: COMMLOST"`: the status gauge exists afterwards with value 0, and every other
field of `metrics` is as before. -/
theorem update_metrics_commlost {V : Type} [NatCast V] (ParseFloat : String → Option V)
    (m : State V) :
    update_metrics ParseFloat "" m = update_metrics ParseFloat "STATUS: COMMLOST" m ∧
    (∃ g, (update_metrics ParseFloat "" m).metrics MetricField.status = some g ∧
      g.value = ((0 : ℕ) : V)) ∧
    (∀ f, f ≠ MetricField.status →
      (update_metrics ParseFloat "" m).metrics f = m.metrics f) := by
  have h1 : update_metrics ParseFloat "" m =
      set_metric m (MetricField.status, "apcupsd_ups_status",
        "UPS Status. Value 0=error 1=ONLINE, for the rest see documentation",
        ((0 : ℕ) : V)) := by
    have hs : Split "STATUS:COMMLOST" '\n' = ["STATUS:COMMLOST"] := by decide
    have hp : parse_line "STATUS:COMMLOST" = some ("STATUS", "COMMLOST") := by decide
    have hc : convert_status "COMMLOST" = 0 := by decide
    simp [update_metrics, hs, process_line, hp, switch_entry, hc]
  have h2 : update_metrics ParseFloat "STATUS: COMMLOST" m =
      set_metric m (MetricField.status, "apcupsd_ups_status",
        "UPS Status. Value 0=error 1=ONLINE, for the rest see documentation",
        ((0 : ℕ) : V)) := by
    have hl : ("STATUS: COMMLOST" : String).length ≠ 0 := by decide
    have hs : Split "STATUS: COMMLOST" '\n' = ["STATUS: COMMLOST"] := by decide
    have hp : parse_line "STATUS: COMMLOST" = some ("STATUS", "COMMLOST") := by decide
    have hc : convert_status "COMMLOST" = 0 := by decide
    simp [update_metrics, hl, hs, process_line, hp, switch_entry, hc]
  refine ⟨h1.trans h2.symm, ?_, ?_⟩
  · rw [h1]
    exact set_metric_self m _ _ _ _
  · intro f hf
    rw [h1]
    exact set_metric_other m _ f _ _ _ hf

/-! ## The loop of `update_metrics` over the lines of a report -/

theorem update_metrics_eq_foldl {V : Type} [NatCast V] (ParseFloat : String → Option V)
    (nis_response : String) (m : State V) :
    update_metrics ParseFloat nis_response m =
      (report_lines nis_response).foldl (process_line ParseFloat) m := rfl

theorem process_line_eq {V : Type} [NatCast V] (ParseFloat : String → Option V)
    (m : State V) (line : String) :
    process_line ParseFloat m line =
      match line_action ParseFloat line with
      | some c => set_metric m c
      | none => m := by
  unfold process_line line_action
  cases parse_line line with
  | none => rfl
  | some kv => rfl

/-- A case of the switch is reached only by its own label; it sets the value of the
converter of its field and names its gauge after the key. -/
theorem switch_entry_some {V : Type} [NatCast V] (ParseFloat : String → Option V)
    (entry value : String) (c : MetricField × String × String × V)
    (h : switch_entry ParseFloat entry value = some c) :
    entry = c.1.key ∧ c.2.2.2 = field_converter ParseFloat c.1 value ∧
      c.2.1 = metric_name c.1 := by
  unfold switch_entry at h
  split at h <;> first
    | (cases h; exact ⟨rfl, rfl, rfl⟩)
    | (exact absurd h (by simp))

theorem line_action_some {V : Type} [NatCast V] (ParseFloat : String → Option V)
    (line : String) (c : MetricField × String × String × V)
    (h : line_action ParseFloat line = some c) :
    ∃ value, parse_line line = some (c.1.key, value) ∧
      c.2.2.2 = field_converter ParseFloat c.1 value ∧ c.2.1 = metric_name c.1 := by
  unfold line_action at h
  cases hp : parse_line line with
  | none => rw [hp] at h; exact absurd h (by simp)
  | some kv =>
    obtain ⟨entry, value⟩ := kv
    rw [hp] at h
    obtain ⟨h1, h2, h3⟩ := switch_entry_some ParseFloat entry value c h
    exact ⟨value, by rw [h1], h2, h3⟩

theorem line_action_of_parse {V : Type} [NatCast V] (ParseFloat : String → Option V)
    (line : String) (f : MetricField) (value : String)
    (h : parse_line line = some (f.key, value)) :
    ∃ n hlp, line_action ParseFloat line =
      some (f, n, hlp, field_converter ParseFloat f value) := by
  obtain ⟨n, hlp, hs⟩ := switch_entry_key ParseFloat f value
  exact ⟨n, hlp, by simp [line_action, h, hs]⟩

theorem State_ext {V : Type} (s t : State V) (hm : ∀ f, s.metrics f = t.metrics f)
    (hr : s.registered = t.registered) : s = t := by
  cases s
  cases t
  simp only [State.mk.injEq]
  exact ⟨funext hm, hr⟩

theorem set_metric_keeps {V : Type} [NatCast V] (m : State V)
    (c : MetricField × String × String × V) (f : MetricField) (g : Gauge V)
    (h : m.metrics f = some g) :
    ∃ g', (set_metric m c).metrics f = some g' ∧ g'.Name = g.Name ∧ g'.Help = g.Help := by
  obtain ⟨f', n, hl, v⟩ := c
  by_cases hf : f = f'
  · subst hf
    refine ⟨g.Set v, ?_, rfl, rfl⟩
    simp [set_metric, h]
  · exact ⟨g, by rw [set_metric_other m f' f n hl v hf, h], rfl, rfl⟩

theorem set_metric_exists {V : Type} [NatCast V] (m : State V)
    (c : MetricField × String × String × V) (g : Gauge V) (h : m.metrics c.1 = some g) :
    (set_metric m c).metrics c.1 = some (g.Set c.2.2.2) ∧
      (set_metric m c).registered = m.registered := by
  simp [set_metric, h]

theorem process_line_frame {V : Type} [NatCast V] (ParseFloat : String → Option V)
    (m : State V) (line : String) (f : MetricField)
    (h : ∀ c, line_action ParseFloat line = some c → c.1 ≠ f) :
    (process_line ParseFloat m line).metrics f = m.metrics f := by
  rw [process_line_eq]
  cases ha : line_action ParseFloat line with
  | none => rfl
  | some c =>
    obtain ⟨f', n, hl, v⟩ := c
    exact set_metric_other m f' f n hl v (Ne.symm (h _ ha))

theorem process_line_keeps {V : Type} [NatCast V] (ParseFloat : String → Option V)
    (m : State V) (line : String) (f : MetricField) (g : Gauge V)
    (h : m.metrics f = some g) :
    ∃ g', (process_line ParseFloat m line).metrics f = some g' ∧
      g'.Name = g.Name ∧ g'.Help = g.Help := by
  rw [process_line_eq]
  cases line_action ParseFloat line with
  | none => exact ⟨g, h, rfl, rfl⟩
  | some c => exact set_metric_keeps m c f g h

theorem foldl_process_line_frame {V : Type} [NatCast V] (ParseFloat : String → Option V)
    (lines : List String) (m : State V) (f : MetricField)
    (h : ∀ line ∈ lines, ∀ c, line_action ParseFloat line = some c → c.1 ≠ f) :
    (lines.foldl (process_line ParseFloat) m).metrics f = m.metrics f := by
  induction lines generalizing m with
  | nil => rfl
  | cons l t ih =>
    rw [List.foldl_cons, ih _ fun line hl => h line (List.mem_cons_of_mem _ hl),
      process_line_frame ParseFloat m l f (h l (List.mem_cons_self _ _))]

theorem foldl_process_line_keeps {V : Type} [NatCast V] (ParseFloat : String → Option V)
    (lines : List String) (m : State V) (f : MetricField) (g : Gauge V)
    (h : m.metrics f = some g) :
    ∃ g', (lines.foldl (process_line ParseFloat) m).metrics f = some g' ∧
      g'.Name = g.Name ∧ g'.Help = g.Help := by
  induction lines generalizing m g with
  | nil => exact ⟨g, h, rfl, rfl⟩
  | cons l t ih =>
    obtain ⟨g1, h1, hn1, hh1⟩ := process_line_keeps ParseFloat m l f g h
    obtain ⟨g2, h2, hn2, hh2⟩ := ih (process_line ParseFloat m l) g1 h1
    exact ⟨g2, h2, hn2.trans hn1, hh2.trans hh1⟩

/-- After a line that reaches a case of the switch, followed by lines that do not reach a
case of the same field, the field holds the value of that line. -/
theorem foldl_process_line_last {V : Type} [NatCast V] (ParseFloat : String → Option V)
    (pre post : List String) (line : String) (m : State V)
    (c : MetricField × String × String × V) (hc : line_action ParseFloat line = some c)
    (hpost : ∀ l ∈ post, ∀ c', line_action ParseFloat l = some c' → c'.1 ≠ c.1) :
    ∃ g, ((pre ++ line :: post).foldl (process_line ParseFloat) m).metrics c.1 = some g ∧
      g.value = c.2.2.2 := by
  rw [List.foldl_append, List.foldl_cons, foldl_process_line_frame ParseFloat post _ c.1 hpost,
    process_line_eq, hc]
  obtain ⟨f, n, hl, v⟩ := c
  exact set_metric_self _ f n hl v

/-- The same when the gauge exists at the start: it keeps its name and help. -/
theorem foldl_process_line_last_of_some {V : Type} [NatCast V]
    (ParseFloat : String → Option V) (pre post : List String) (line : String) (m : State V)
    (c : MetricField × String × String × V) (g : Gauge V)
    (hc : line_action ParseFloat line = some c)
    (hpost : ∀ l ∈ post, ∀ c', line_action ParseFloat l = some c' → c'.1 ≠ c.1)
    (hg : m.metrics c.1 = some g) :
    ((pre ++ line :: post).foldl (process_line ParseFloat) m).metrics c.1 =
      some (g.Set c.2.2.2) := by
  rw [List.foldl_append, List.foldl_cons, foldl_process_line_frame ParseFloat post _ c.1 hpost,
    process_line_eq, hc]
  obtain ⟨g1, h1, hn, hh⟩ := foldl_process_line_keeps ParseFloat pre m c.1 g hg
  rw [(set_metric_exists _ c g1 h1).1]
  cases g1
  cases g
  simp only [Gauge.Set] at hn hh ⊢
  simp_all

/-- Either no line reaches a case of the field, or there is a last line that does. -/
theorem last_action_cases {V : Type} [NatCast V] (ParseFloat : String → Option V)
    (lines : List String) (f : MetricField) :
    (∀ line ∈ lines, ∀ c, line_action ParseFloat line = some c → c.1 ≠ f) ∨
    ∃ pre line post c, lines = pre ++ line :: post ∧
      line_action ParseFloat line = some c ∧ c.1 = f ∧
      ∀ l ∈ post, ∀ c', line_action ParseFloat l = some c' → c'.1 ≠ f := by
  induction lines using List.reverseRecOn with
  | nil => exact Or.inl (by simp)
  | append_singleton t l ih =>
    by_cases hl : ∃ c, line_action ParseFloat l = some c ∧ c.1 = f
    · obtain ⟨c, hc, hf⟩ := hl
      exact Or.inr ⟨t, l, [], c, rfl, hc, hf, by simp⟩
    · have hl' : ∀ c, line_action ParseFloat l = some c → c.1 ≠ f :=
        fun c hc hf => hl ⟨c, hc, hf⟩
      rcases ih with h | ⟨pre, line, post, c, rfl, hc, hf, hpost⟩
      · left
        intro line hmem
        rcases List.mem_append.mp hmem with h1 | h1
        · exact h line h1
        · rw [List.mem_singleton.mp h1]; exact hl'
      · right
        refine ⟨pre, line, post ++ [l], c, by simp, hc, hf, ?_⟩
        intro x hx
        rcases List.mem_append.mp hx with h1 | h1
        · exact hpost x h1
        · rw [List.mem_singleton.mp h1]; exact hl'

theorem foldl_process_line_registered {V : Type} [NatCast V]
    (ParseFloat : String → Option V) (lines : List String) (m : State V)
    (h : ∀ line ∈ lines, ∀ c, line_action ParseFloat line = some c →
      (m.metrics c.1).isSome = true) :
    (lines.foldl (process_line ParseFloat) m).registered = m.registered := by
  induction lines generalizing m with
  | nil => rfl
  | cons l t ih =>
    have hstep : (process_line ParseFloat m l).registered = m.registered := by
      rw [process_line_eq]
      cases ha : line_action ParseFloat l with
      | none => rfl
      | some c =>
        obtain ⟨g, hg⟩ := Option.isSome_iff_exists.mp (h l (List.mem_cons_self _ _) c ha)
        exact (set_metric_exists m c g hg).2
    rw [List.foldl_cons, ih, hstep]
    intro line hmem c hc
    obtain ⟨g, hg⟩ := Option.isSome_iff_exists.mp (h line (List.mem_cons_of_mem _ hmem) c hc)
    obtain ⟨g', hg', _, _⟩ := process_line_keeps ParseFloat m l c.1 g hg
    simp [hg']

/-- Applying the same lines again changes nothing. -/
theorem foldl_process_line_idem {V : Type} [NatCast V] (ParseFloat : String → Option V)
    (lines : List String) (m : State V) :
    lines.foldl (process_line ParseFloat) (lines.foldl (process_line ParseFloat) m) =
      lines.foldl (process_line ParseFloat) m := by
  apply State_ext
  · intro f
    rcases last_action_cases ParseFloat lines f with h | ⟨pre, line, post, c, rfl, hc, hf, hpost⟩
    · rw [foldl_process_line_frame ParseFloat lines _ f h]
    · subst hf
      obtain ⟨g, hg, hv⟩ := foldl_process_line_last ParseFloat pre post line m c hc hpost
      rw [foldl_process_line_last_of_some ParseFloat pre post line _ c g hc hpost hg, hg, ← hv]
      rfl
  · apply foldl_process_line_registered
    intro line hmem c hc
    obtain ⟨pre, post, rfl⟩ := List.append_of_mem hmem
    obtain ⟨g1, h1⟩ : ∃ g1, ((pre ++ [line]).foldl (process_line ParseFloat) m).metrics c.1 =
        some g1 := by
      obtain ⟨g, hg, _⟩ := foldl_process_line_last ParseFloat pre [] line m c hc (by simp)
      exact ⟨g, hg⟩
    have : pre ++ line :: post = (pre ++ [line]) ++ post := by simp
    obtain ⟨g2, h2, _, _⟩ := foldl_process_line_keeps ParseFloat post _ c.1 g1 h1
    rw [this, List.foldl_append, h2]
    rfl

/-! ## Reordering the lines of a report -/

theorem accepted_keys_append_cons (pre post : List String) (line key value : String)
    (h : parse_line line = some (key, value)) :
    accepted_keys (pre ++ line :: post) = accepted_keys pre ++ key :: accepted_keys post := by
  simp [accepted_keys, List.filterMap_append, List.filterMap_cons, h]

theorem mem_accepted_keys (lines : List String) (line key value : String)
    (hmem : line ∈ lines) (h : parse_line line = some (key, value)) :
    key ∈ accepted_keys lines := by
  simp only [accepted_keys, List.mem_map, List.mem_filterMap]
  exact ⟨(key, value), ⟨line, hmem, h⟩, rfl⟩

/-- In a report whose accepted keys are pairwise distinct, no other line has the key of a
given accepted line. -/
theorem nodup_keys_others (pre post : List String) (line key value : String)
    (hnd : (accepted_keys (pre ++ line :: post)).Nodup)
    (h : parse_line line = some (key, value)) :
    ∀ l ∈ pre ++ post, ∀ w, parse_line l ≠ some (key, w) := by
  rw [accepted_keys_append_cons pre post line key value h] at hnd
  have h1 : key ∉ accepted_keys pre := by
    intro hk
    exact (List.nodup_append.mp hnd).2.2 hk (List.mem_cons_self _ _)
  have h2 : key ∉ accepted_keys post :=
    (List.nodup_cons.mp (List.nodup_append.mp hnd).2.1).1
  intro l hl w hw
  rcases List.mem_append.mp hl with hl | hl
  · exact h1 (mem_accepted_keys pre l key w hl hw)
  · exact h2 (mem_accepted_keys post l key w hl hw)

theorem set_metric_congr {V : Type} [NatCast V] (m m' : State V)
    (c : MetricField × String × String × V) (h : m'.metrics c.1 = m.metrics c.1) :
    (set_metric m' c).metrics c.1 = (set_metric m c).metrics c.1 := by
  simp [set_metric, h]
  cases m.metrics c.1 <;> simp

/-- When one line only reaches a case of a field, the field ends as that case leaves it
on the initial state. -/
theorem foldl_process_line_single {V : Type} [NatCast V] (ParseFloat : String → Option V)
    (pre post : List String) (line : String) (m : State V)
    (c : MetricField × String × String × V) (hc : line_action ParseFloat line = some c)
    (hothers : ∀ l ∈ pre ++ post, ∀ c', line_action ParseFloat l = some c' → c'.1 ≠ c.1) :
    ((pre ++ line :: post).foldl (process_line ParseFloat) m).metrics c.1 =
      (set_metric m c).metrics c.1 := by
  rw [List.foldl_append, List.foldl_cons,
    foldl_process_line_frame ParseFloat post _ c.1
      (fun l hl => hothers l (List.mem_append_right _ hl)),
    process_line_eq, hc]
  exact set_metric_congr m _ c
    (foldl_process_line_frame ParseFloat pre m c.1
      (fun l hl => hothers l (List.mem_append_left _ hl)))

theorem nodup_keys_no_other_action {V : Type} [NatCast V] (ParseFloat : String → Option V)
    (pre post : List String) (line : String) (c : MetricField × String × String × V)
    (hnd : (accepted_keys (pre ++ line :: post)).Nodup)
    (hc : line_action ParseFloat line = some c) :
    ∀ l ∈ pre ++ post, ∀ c', line_action ParseFloat l = some c' → c'.1 ≠ c.1 := by
  obtain ⟨value, hp, _, _⟩ := line_action_some ParseFloat line c hc
  intro l hl c' hc' hf
  obtain ⟨w, hw, _, _⟩ := line_action_some ParseFloat l c' hc'
  rw [hf] at hw
  exact nodup_keys_others pre post line _ value hnd hp l hl w hw

theorem foldl_process_line_perm_metrics {V : Type} [NatCast V]
    (ParseFloat : String → Option V) (lines lines' : List String) (m : State V)
    (hperm : lines'.Perm lines) (hnd : (accepted_keys lines).Nodup) (f : MetricField) :
    (lines'.foldl (process_line ParseFloat) m).metrics f =
      (lines.foldl (process_line ParseFloat) m).metrics f := by
  have hnd' : (accepted_keys lines').Nodup :=
    (((hperm.filterMap parse_line).map Prod.fst).nodup_iff).mpr hnd
  rcases last_action_cases ParseFloat lines f with h | ⟨pre, line, post, c, rfl, hc, hf, _⟩
  · rw [foldl_process_line_frame ParseFloat lines m f h,
      foldl_process_line_frame ParseFloat lines' m f
        (fun l hl => h l (hperm.subset hl))]
  · subst hf
    have hmem : line ∈ lines' := hperm.symm.subset (by simp)
    obtain ⟨pre', post', rfl⟩ := List.append_of_mem hmem
    rw [foldl_process_line_single ParseFloat pre post line m c hc
        (nodup_keys_no_other_action ParseFloat pre post line c hnd hc),
      foldl_process_line_single ParseFloat pre' post' line m c hc
        (nodup_keys_no_other_action ParseFloat pre' post' line c hnd' hc)]

/-- With pairwise distinct accepted keys, the names registered are those of the lines
whose field is `nil` at the start, in the order of the lines. -/
theorem foldl_process_line_registered_nodup {V : Type} [NatCast V]
    (ParseFloat : String → Option V) (lines : List String) (m : State V)
    (hnd : (accepted_keys lines).Nodup) :
    (lines.foldl (process_line ParseFloat) m).registered =
      m.registered ++ lines.filterMap fun line =>
        match line_action ParseFloat line with
        | some c => if (m.metrics c.1).isSome then none else some c.2.1
        | none => none := by
  induction lines generalizing m with
  | nil => simp
  | cons l t ih =>
    have hndt : (accepted_keys t).Nodup := by
      cases hp : parse_line l with
      | none => simpa [accepted_keys, List.filterMap_cons, hp] using hnd
      | some kv =>
        have := hnd
        simp only [accepted_keys, List.filterMap_cons, hp, List.map_cons,
          List.nodup_cons] at this
        exact this.2
    rw [List.foldl_cons, ih _ hndt, process_line_eq, List.filterMap_cons]
    cases hc : line_action ParseFloat l with
    | none => rfl
    | some c =>
      have hoth := nodup_keys_no_other_action ParseFloat [] t l c (by simpa using hnd) hc
      have hcongr : (t.filterMap fun line =>
            match line_action ParseFloat line with
            | some c' => if ((set_metric m c).metrics c'.1).isSome then none else some c'.2.1
            | none => none) =
          t.filterMap fun line =>
            match line_action ParseFloat line with
            | some c' => if (m.metrics c'.1).isSome then none else some c'.2.1
            | none => none := by
        apply List.filterMap_congr
        intro line hline
        cases hc' : line_action ParseFloat line with
        | none => rfl
        | some c' =>
          have hne : c'.1 ≠ c.1 := hoth line (by simpa using hline) c' hc'
          obtain ⟨f, n, hl, v⟩ := c
          simp only [set_metric_other m f c'.1 n hl v hne]
      simp only [hcongr]
      cases hm : m.metrics c.1 with
      | none => simp [set_metric, hm]
      | some g => simp [set_metric, hm]

/-! ## The projection over a whole report (C11, C12, C13, C17) -/

/-- C11: a gauge that exists before `update_metrics` exists afterwards, with the same
name and help; a field whose key is the key of no accepted line of the report keeps what
it held; and a report none of whose accepted keys is supported leaves the whole state as
it was. -/
theorem update_metrics_frame {V : Type} [NatCast V] (ParseFloat : String → Option V)
    (nis_response : String) (m : State V) :
    (∀ f g, m.metrics f = some g →
      ∃ g', (update_metrics ParseFloat nis_response m).metrics f = some g' ∧
        g'.Name = g.Name ∧ g'.Help = g.Help) ∧
    (∀ f, (∀ line ∈ report_lines nis_response, ∀ value,
        parse_line line ≠ some (f.key, value)) →
      (update_metrics ParseFloat nis_response m).metrics f = m.metrics f) ∧
    ((∀ line ∈ report_lines nis_response, ∀ (f : MetricField) (value : String),
        parse_line line ≠ some (f.key, value)) →
      update_metrics ParseFloat nis_response m = m) ∧
    (nis_response.length ≠ 0 → report_lines nis_response = Split nis_response '\n') := by
  have hframe : ∀ f, (∀ line ∈ report_lines nis_response, ∀ value,
      parse_line line ≠ some (f.key, value)) →
      (update_metrics ParseFloat nis_response m).metrics f = m.metrics f := by
    intro f h
    rw [update_metrics_eq_foldl]
    apply foldl_process_line_frame
    intro line hl c hc hf
    obtain ⟨value, hp, _, _⟩ := line_action_some ParseFloat line c hc
    exact h line hl value (hf ▸ hp)
  refine ⟨?_, hframe, ?_, ?_⟩
  · intro f g hg
    rw [update_metrics_eq_foldl]
    exact foldl_process_line_keeps ParseFloat _ m f g hg
  · intro h
    apply State_ext
    · intro f
      exact hframe f fun line hl value => h line hl f value
    · rw [update_metrics_eq_foldl]
      apply foldl_process_line_registered
      intro line hl c hc
      obtain ⟨value, hp, _, _⟩ := line_action_some ParseFloat line c hc
      exact absurd hp (h line hl c.1 value)
  · intro h
    simp [report_lines, h]

/-- C11 on the report `"LINEV: 230.1 Volts\nFOO: 1"` and a state that holds a status
gauge: the status gauge is as before. -/
theorem update_metrics_frame_witness :
    (update_metrics refParseFloat "LINEV: 230.1 Volts\nFOO: 1"
        (set_metric (State.init RefFloat)
          (MetricField.status, "apcupsd_ups_status", "", RefFloat.dec 8 0))).metrics
        MetricField.status =
      some ⟨"apcupsd_ups_status", "", RefFloat.dec 8 0⟩ :=
  ((update_metrics_frame refParseFloat "LINEV: 230.1 Volts\nFOO: 1"
      (set_metric (State.init RefFloat)
        (MetricField.status, "apcupsd_ups_status", "", RefFloat.dec 8 0))).2.1
    MetricField.status (by
      have hl : report_lines "LINEV: 230.1 Volts\nFOO: 1" = ["LINEV: 230.1 Volts", "FOO: 1"] := by
        decide
      have h1 : parse_line "LINEV: 230.1 Volts" = some ("LINEV", "230.1 Volts") := by decide
      have h2 : parse_line "FOO: 1" = some ("FOO", "1") := by decide
      intro line hmem value
      rw [hl] at hmem
      rcases List.mem_cons.mp hmem with h | h
      · rw [h, h1]; simp [MetricField.key]
      · rw [List.mem_singleton.mp h, h2]; simp [MetricField.key])).trans (by decide)

/-- C12: applying a report twice in succession leaves the state that applying it once
leaves: the same gauges with the same names, help texts and values, and the same
registered names. -/
theorem update_metrics_idempotent {V : Type} [NatCast V] (ParseFloat : String → Option V)
    (nis_response : String) (m : State V) :
    update_metrics ParseFloat nis_response (update_metrics ParseFloat nis_response m) =
      update_metrics ParseFloat nis_response m := by
  simp only [update_metrics_eq_foldl]
  exact foldl_process_line_idem ParseFloat _ m

/-- C17: when the key of a field occurs in accepted lines of the report, the gauge of
the field ends with the conversion of the value of the last such line; and two reports
with the same lines in another order, the accepted keys being pairwise distinct, leave
the same gauges, and register the same names up to their order. -/
theorem update_metrics_last_wins {V : Type} [NatCast V] (ParseFloat : String → Option V)
    (m : State V) :
    (∀ (nis_response : String) (pre post : List String) (line : String) (f : MetricField)
        (value : String),
      report_lines nis_response = pre ++ line :: post →
      parse_line line = some (f.key, value) →
      (∀ l ∈ post, ∀ v, parse_line l ≠ some (f.key, v)) →
      ∃ g, (update_metrics ParseFloat nis_response m).metrics f = some g ∧
        g.value = field_converter ParseFloat f value) ∧
    (∀ nis_response reordered : String,
      (report_lines reordered).Perm (report_lines nis_response) →
      (accepted_keys (report_lines nis_response)).Nodup →
      (update_metrics ParseFloat reordered m).metrics =
        (update_metrics ParseFloat nis_response m).metrics ∧
      (update_metrics ParseFloat reordered m).registered.Perm
        (update_metrics ParseFloat nis_response m).registered) := by
  constructor
  · intro r pre post line f value hr hp hpost
    obtain ⟨n, hlp, hc⟩ := line_action_of_parse ParseFloat line f value hp
    rw [update_metrics_eq_foldl, hr]
    refine foldl_process_line_last ParseFloat pre post line m _ hc ?_
    intro l hl c' hc' hf
    obtain ⟨w, hw, _, _⟩ := line_action_some ParseFloat l c' hc'
    have hf' : c'.1 = f := hf
    rw [hf'] at hw
    exact hpost l hl w hw
  · intro r r' hperm hnd
    have hnd' : (accepted_keys (report_lines r')).Nodup :=
      (((hperm.filterMap parse_line).map Prod.fst).nodup_iff).mpr hnd
    constructor
    · funext f
      simp only [update_metrics_eq_foldl]
      exact foldl_process_line_perm_metrics ParseFloat _ _ m hperm hnd f
    · simp only [update_metrics_eq_foldl]
      rw [foldl_process_line_registered_nodup ParseFloat _ m hnd,
        foldl_process_line_registered_nodup ParseFloat _ m hnd']
      exact (hperm.filterMap _).append_left _

/-- C17 on the report `"LINEV: 1\nLOADPCT: 5\nLINEV: 2"`: the gauge of LINEV ends
with 2. -/
theorem update_metrics_last_wins_witness :
    ∃ g, (update_metrics refParseFloat "LINEV: 1\nLOADPCT: 5\nLINEV: 2"
        (State.init RefFloat)).metrics MetricField.linev = some g ∧
      g.value = RefFloat.dec 2 0 :=
  (update_metrics_last_wins refParseFloat (State.init RefFloat)).1
    "LINEV: 1\nLOADPCT: 5\nLINEV: 2" ["LINEV: 1", "LOADPCT: 5"] [] "LINEV: 2"
    MetricField.linev "2" (by decide) (by decide) (by simp)

/-- C13, as stated: on the scenario report the status gauge does not end with 0 beside
`linev = 230.1` and `loadpct = 12`. -/
theorem scenario_status_ne_zero :
    ¬ (((update_metrics refParseFloat
          "STATUS: ONLINE\nLINEV: 230.1 Volts\nBADLINE\nLOADPCT: 12 Percent\n"
          (State.init RefFloat)).metrics MetricField.status).map Gauge.value =
        some ((0 : ℕ) : RefFloat) ∧
      ((update_metrics refParseFloat
          "STATUS: ONLINE\nLINEV: 230.1 Volts\nBADLINE\nLOADPCT: 12 Percent\n"
          (State.init RefFloat)).metrics MetricField.linev).map Gauge.value =
        some (RefFloat.dec 2301 1) ∧
      ((update_metrics refParseFloat
          "STATUS: ONLINE\nLINEV: 230.1 Volts\nBADLINE\nLOADPCT: 12 Percent\n"
          (State.init RefFloat)).metrics MetricField.loadpct).map Gauge.value =
        some ((12 : ℕ) : RefFloat)) := by
  decide

/-- C13, amended: from the empty state the scenario report yields exactly three gauges,
`status = 1`, `linev` with the value of `"230.1"` and `loadpct` with the value of `"12"`;
every other field stays `nil`, and only the three names are registered, so nothing is
created for `BADLINE`. -/
theorem update_metrics_scenario {V : Type} [NatCast V] (ParseFloat : String → Option V)
    (a b : V) (ha : ParseFloat "230.1" = some a) (hb : ParseFloat "12" = some b) :
    (update_metrics ParseFloat
        "STATUS: ONLINE\nLINEV: 230.1 Volts\nBADLINE\nLOADPCT: 12 Percent\n"
        (State.init V)).metrics MetricField.status =
      some ⟨"apcupsd_ups_status",
        "UPS Status. Value 0=error 1=ONLINE, for the rest see documentation",
        ((1 : ℕ) : V)⟩ ∧
    (update_metrics ParseFloat
        "STATUS: ONLINE\nLINEV: 230.1 Volts\nBADLINE\nLOADPCT: 12 Percent\n"
        (State.init V)).metrics MetricField.linev =
      some ⟨"apcupsd_ups_linev", "Current input line voltage", a⟩ ∧
    (update_metrics ParseFloat
        "STATUS: ONLINE\nLINEV: 230.1 Volts\nBADLINE\nLOADPCT: 12 Percent\n"
        (State.init V)).metrics MetricField.loadpct =
      some ⟨"apcupsd_ups_loadpct",
        "Percentage of UPS load capacity used as estimated by UPS", b⟩ ∧
    (∀ f, f ≠ MetricField.status → f ≠ MetricField.linev → f ≠ MetricField.loadpct →
      (update_metrics ParseFloat
        "STATUS: ONLINE\nLINEV: 230.1 Volts\nBADLINE\nLOADPCT: 12 Percent\n"
        (State.init V)).metrics f = none) ∧
    (update_metrics ParseFloat
        "STATUS: ONLINE\nLINEV: 230.1 Volts\nBADLINE\nLOADPCT: 12 Percent\n"
        (State.init V)).registered =
      ["apcupsd_ups_status", "apcupsd_ups_linev", "apcupsd_ups_loadpct"] := by
  have hlines : report_lines
      "STATUS: ONLINE\nLINEV: 230.1 Volts\nBADLINE\nLOADPCT: 12 Percent\n" =
      ["STATUS: ONLINE", "LINEV: 230.1 Volts", "BADLINE", "LOADPCT: 12 Percent", ""] := by
    decide
  have h1 : parse_line "STATUS: ONLINE" = some ("STATUS", "ONLINE") := by decide
  have h2 : parse_line "LINEV: 230.1 Volts" = some ("LINEV", "230.1 Volts") := by decide
  have h3 : parse_line "BADLINE" = none := by decide
  have h4 : parse_line "LOADPCT: 12 Percent" = some ("LOADPCT", "12 Percent") := by decide
  have h5 : parse_line "" = none := by decide
  have hs : convert_status "ONLINE" = 1 := by decide
  have hv : strip_units "230.1 Volts" = "230.1" := by decide
  have hp : strip_units "12 Percent" = "12" := by decide
  have hstate : update_metrics ParseFloat
      "STATUS: ONLINE\nLINEV: 230.1 Volts\nBADLINE\nLOADPCT: 12 Percent\n" (State.init V) =
      set_metric (set_metric (set_metric (State.init V)
        (MetricField.status, "apcupsd_ups_status",
          "UPS Status. Value 0=error 1=ONLINE, for the rest see documentation",
          ((1 : ℕ) : V)))
        (MetricField.linev, "apcupsd_ups_linev", "Current input line voltage", a))
        (MetricField.loadpct, "apcupsd_ups_loadpct",
          "Percentage of UPS load capacity used as estimated by UPS", b) := by
    rw [update_metrics_eq_foldl, hlines]
    simp [process_line, h1, h2, h3, h4, h5, switch_entry, hs, convert_float64, hv, hp, ha, hb]
  rw [hstate]
  refine ⟨?_, ?_, ?_, ?_, ?_⟩
  · simp [set_metric, State.init, NewGauge, Gauge.Set, Function.update]
  · simp [set_metric, State.init, NewGauge, Gauge.Set, Function.update]
  · simp [set_metric, State.init, NewGauge, Gauge.Set, Function.update]
  · intro f hf1 hf2 hf3
    simp [set_metric, State.init, NewGauge, Gauge.Set, Function.update, hf1, hf2, hf3]
  · simp [set_metric, State.init, NewGauge, Gauge.Set, Function.update]

/-- C13, amended, with the reference parser: `linev` is 230.1 and `loadpct` is 12. -/
theorem update_metrics_scenario_witness :
    refParseFloat "230.1" = some (RefFloat.dec 2301 1) ∧
    refParseFloat "12" = some ((12 : ℕ) : RefFloat) ∧
    ((update_metrics refParseFloat
        "STATUS: ONLINE\nLINEV: 230.1 Volts\nBADLINE\nLOADPCT: 12 Percent\n"
        (State.init RefFloat)).metrics MetricField.status).map Gauge.value =
      some ((1 : ℕ) : RefFloat) :=
  ⟨by decide, by decide,
    by rw [(update_metrics_scenario refParseFloat (RefFloat.dec 2301 1)
      ((12 : ℕ) : RefFloat) (by decide) (by decide)).1]; rfl⟩

/-! ## Metric names (C20) -/

theorem metric_name_injective (f f' : MetricField) (h : metric_name f = metric_name f') :
    f = f' := by
  cases f <;> cases f' <;> first
    | rfl
    | exact absurd h (by decide)

/-- The registry and the gauges are in step: no name is registered twice, the name of a
field is registered exactly when the field holds a gauge, and that gauge has that name. -/
theorem set_metric_names {V : Type} [NatCast V] (m : State V)
    (c : MetricField × String × String × V) (hc : c.2.1 = metric_name c.1)
    (h : m.registered.Nodup ∧
      (∀ f, metric_name f ∈ m.registered ↔ (m.metrics f).isSome = true) ∧
      ∀ f g, m.metrics f = some g → g.Name = metric_name f) :
    (set_metric m c).registered.Nodup ∧
      (∀ f, metric_name f ∈ (set_metric m c).registered ↔
        ((set_metric m c).metrics f).isSome = true) ∧
      ∀ f g, (set_metric m c).metrics f = some g → g.Name = metric_name f := by
  obtain ⟨hnd, hiff, hname⟩ := h
  obtain ⟨f0, n, hl, v⟩ := c
  simp only at hc
  subst hc
  cases hm : m.metrics f0 with
  | some g0 =>
    have hreg : (set_metric m (f0, metric_name f0, hl, v)).registered = m.registered := by
      simp [set_metric, hm]
    refine ⟨by rw [hreg]; exact hnd, ?_, ?_⟩
    · intro f
      rw [hreg, hiff]
      by_cases hf : f = f0
      · subst hf; simp [set_metric, hm]
      · rw [set_metric_other m f0 f _ hl v hf]
    · intro f g hg
      by_cases hf : f = f0
      · subst hf
        have : g = g0.Set v := by
          simp [set_metric, hm] at hg
          exact hg.symm
        rw [this]
        exact hname f g0 hm
      · rw [set_metric_other m f0 f _ hl v hf] at hg
        exact hname f g hg
  | none =>
    have hnot : metric_name f0 ∉ m.registered := by
      rw [hiff, hm]; simp
    have hreg : (set_metric m (f0, metric_name f0, hl, v)).registered =
        m.registered ++ [metric_name f0] := by
      simp [set_metric, hm]
    refine ⟨?_, ?_, ?_⟩
    · rw [hreg]
      exact List.Nodup.append hnd (List.nodup_singleton _) (by simpa using hnot)
    · intro f
      rw [hreg]
      by_cases hf : f = f0
      · subst hf; simp [set_metric, hm]
      · rw [set_metric_other m f0 f _ hl v hf, ← hiff]
        simp only [List.mem_append, List.mem_singleton]
        constructor
        · rintro (h | h)
          · exact h
          · exact absurd (metric_name_injective f f0 h) hf
        · exact Or.inl
    · intro f g hg
      by_cases hf : f = f0
      · subst hf
        have : g = (NewGauge (metric_name f) hl : Gauge V).Set v := by
          simp [set_metric, hm] at hg
          exact hg.symm
        rw [this]
        rfl
      · rw [set_metric_other m f0 f _ hl v hf] at hg
        exact hname f g hg

theorem update_metrics_names {V : Type} [NatCast V] (ParseFloat : String → Option V)
    (nis_response : String) (m : State V)
    (h : m.registered.Nodup ∧
      (∀ f, metric_name f ∈ m.registered ↔ (m.metrics f).isSome = true) ∧
      ∀ f g, m.metrics f = some g → g.Name = metric_name f) :
    (update_metrics ParseFloat nis_response m).registered.Nodup ∧
      (∀ f, metric_name f ∈ (update_metrics ParseFloat nis_response m).registered ↔
        ((update_metrics ParseFloat nis_response m).metrics f).isSome = true) ∧
      ∀ f g, (update_metrics ParseFloat nis_response m).metrics f = some g →
        g.Name = metric_name f := by
  rw [update_metrics_eq_foldl]
  generalize report_lines nis_response = lines
  induction lines generalizing m with
  | nil => exact h
  | cons l t ih =>
    rw [List.foldl_cons]
    apply ih
    rw [process_line_eq]
    cases hc : line_action ParseFloat l with
    | none => exact h
    | some c =>
      obtain ⟨_, _, _, hn⟩ := line_action_some ParseFloat l c hc
      exact set_metric_names m c hn h

/-- C20: the case of each supported key creates its gauge under the name `"apcupsd_ups_"`
followed by the key in lower case; distinct keys have distinct names; and after any
sequence of polls from the initial state no name has been registered twice, each field
that holds a gauge holding the one of that name. -/
theorem metric_names_spec {V : Type} [NatCast V] (ParseFloat : String → Option V) :
    (∀ (f : MetricField) (value : String), ∃ hlp x,
      switch_entry ParseFloat f.key value =
        some (f, "apcupsd_ups_" ++ ToLower f.key, hlp, x)) ∧
    (∀ f f' : MetricField, f.key ≠ f'.key →
      "apcupsd_ups_" ++ ToLower f.key ≠ "apcupsd_ups_" ++ ToLower f'.key) ∧
    (∀ responses : List String,
      (responses.foldl (fun s r => update_metrics ParseFloat r s)
        (State.init V)).registered.Nodup ∧
      ∀ f g, (responses.foldl (fun s r => update_metrics ParseFloat r s)
          (State.init V)).metrics f = some g →
        g.Name = "apcupsd_ups_" ++ ToLower f.key ∧
          g.Name ∈ (responses.foldl (fun s r => update_metrics ParseFloat r s)
            (State.init V)).registered) := by
  refine ⟨?_, ?_, ?_⟩
  · intro f value
    cases f <;> exact ⟨_, _, rfl⟩
  · intro f f' hk hn
    exact hk (congrArg MetricField.key (metric_name_injective f f' hn))
  · intro responses
    have hinv : ∀ (rs : List String) (m : State V),
        (m.registered.Nodup ∧
          (∀ f, metric_name f ∈ m.registered ↔ (m.metrics f).isSome = true) ∧
          ∀ f g, m.metrics f = some g → g.Name = metric_name f) →
        ((rs.foldl (fun s r => update_metrics ParseFloat r s) m).registered.Nodup ∧
          (∀ f, metric_name f ∈
              (rs.foldl (fun s r => update_metrics ParseFloat r s) m).registered ↔
            ((rs.foldl (fun s r => update_metrics ParseFloat r s) m).metrics f).isSome
              = true) ∧
          ∀ f g, (rs.foldl (fun s r => update_metrics ParseFloat r s) m).metrics f = some g →
            g.Name = metric_name f) := by
      intro rs
      induction rs with
      | nil => intro m h; exact h
      | cons r t ih =>
        intro m h
        rw [List.foldl_cons]
        exact ih _ (update_metrics_names ParseFloat r m h)
    obtain ⟨hnd, hiff, hname⟩ := hinv responses (State.init V)
      ⟨List.nodup_nil, by intro f; simp [State.init], by intro f g hg; simp [State.init] at hg⟩
    refine ⟨hnd, ?_⟩
    intro f g hg
    have hn := hname f g hg
    refine ⟨hn, ?_⟩
    rw [hn, hiff f, hg]
    rfl

/-! ## The bits of the status value (C18, C19) -/

theorem testBit_two_pow_add_of_not (a n j : ℕ) (h : n.testBit a = false) :
    (2 ^ a + n).testBit j = (decide (j = a) || n.testBit j) := by
  have hr : n % 2 ^ (a + 1) < 2 ^ a := by
    apply Nat.lt_pow_two_of_testBit
    intro i hi
    rcases Nat.eq_or_lt_of_le hi with h1 | h1
    · subst h1
      simp [Nat.testBit_mod_two_pow, h]
    · simp only [Nat.testBit_mod_two_pow, Bool.and_eq_false_imp, decide_eq_true_eq]
      intro h2
      omega
  have hn : n = 2 ^ (a + 1) * (n / 2 ^ (a + 1)) + n % 2 ^ (a + 1) :=
    (Nat.div_add_mod n (2 ^ (a + 1))).symm
  have hlt : 2 ^ a + n % 2 ^ (a + 1) < 2 ^ (a + 1) := by
    have hr' := hr
    rw [Nat.pow_succ] at hr' ⊢
    omega
  have hsum : 2 ^ a + n = 2 ^ (a + 1) * (n / 2 ^ (a + 1)) + (2 ^ a + n % 2 ^ (a + 1)) := by
    conv_lhs => rw [hn]
    exact Nat.add_left_comm _ _ _
  have hra : (n % 2 ^ (a + 1)).testBit a = false := Nat.testBit_lt_two_pow hr
  rw [hsum, Nat.testBit_mul_pow_two_add _ hlt]
  conv_rhs => rw [hn, Nat.testBit_mul_pow_two_add _ (Nat.mod_lt _ (Nat.two_pow_pos _))]
  by_cases hj : j < a + 1
  · simp only [hj, if_true]
    rcases Nat.lt_or_eq_of_le (Nat.lt_succ_iff.mp hj) with h1 | h1
    · rw [Nat.testBit_two_pow_add_gt h1]
      simp [Nat.ne_of_lt h1]
    · subst h1
      rw [Nat.testBit_two_pow_add_eq, hra]
      simp
  · simp only [hj, if_false]
    have : j ≠ a := by omega
    simp [this]

/-- The bits of a sum of powers of two with pairwise distinct exponents are the
exponents. -/
theorem testBit_sum_two_pow (codes : List ℕ) (hnd : codes.Nodup) (j : ℕ) :
    ((codes.map fun k => 2 ^ k).sum).testBit j = decide (j ∈ codes) := by
  induction codes generalizing j with
  | nil => simp
  | cons a t ih =>
    have hat : a ∉ t := (List.nodup_cons.mp hnd).1
    have ha : ((t.map fun k => 2 ^ k).sum).testBit a = false := by
      rw [ih (List.nodup_cons.mp hnd).2 a]
      simpa using hat
    rw [List.map_cons, List.sum_cons, testBit_two_pow_add_of_not a _ j ha,
      ih (List.nodup_cons.mp hnd).2 j]
    simp [List.mem_cons]

theorem status_codes_injective (t t' : String) (k : ℕ) (h : status_codes t = some k)
    (h' : status_codes t' = some k) : t = t' := by
  unfold status_codes at h h'
  split at h <;> split at h' <;> first
    | rfl
    | (simp only [Option.some.injEq] at h h'; omega)
    | simp_all

theorem add_status_zero (s : String) :
    add_status 0 s = ((status_codes (TrimSpace s)).toList.map fun k => 2 ^ k).sum := by
  unfold add_status
  cases status_codes (TrimSpace s) <;> simp

/-- The value of `convert_status` is the sum of the powers of two of the codes of its
tokens. -/
theorem convert_status_eq_codes (value : String) :
    convert_status value =
      (((status_tokens value).filterMap status_codes).map fun k => 2 ^ k).sum := by
  unfold convert_status status_tokens
  rw [foldl_add_status, Nat.zero_add]
  generalize Split (TrimSpace value) ' ' = pieces
  induction pieces with
  | nil => rfl
  | cons s t ih =>
    rw [List.map_cons, List.sum_cons, ih, add_status_zero, List.map_cons, List.filterMap_cons]
    cases status_codes (TrimSpace s) <;> simp

theorem mem_codes_iff (value tok : String) (k : ℕ) (h : status_codes tok = some k) :
    k ∈ (status_tokens value).filterMap status_codes ↔ tok ∈ status_tokens value := by
  rw [List.mem_filterMap]
  constructor
  · rintro ⟨t, ht, hk⟩
    rw [status_codes_injective tok t k h hk]
    exact ht
  · intro ht
    exact ⟨tok, ht, h⟩

theorem codes_nodup (value : String)
    (hnd : ((status_tokens value).filter fun t => (status_codes t).isSome).Nodup) :
    ((status_tokens value).filterMap status_codes).Nodup := by
  have heq : (status_tokens value).filterMap status_codes =
      ((status_tokens value).filter fun t => (status_codes t).isSome).filterMap
        status_codes := by
    generalize status_tokens value = l
    induction l with
    | nil => rfl
    | cons t u ih =>
      rw [List.filterMap_cons, List.filter_cons]
      cases ht : status_codes t with
      | none => simpa using ih
      | some k => simp [ht, ih]
  rw [heq]
  refine List.Nodup.filterMap ?_ hnd
  intro t t' k hk hk'
  exact status_codes_injective t t' k hk hk'

/-- C18, as stated: on the field `"ONLINE ONLINE"` the token ONLINE (bit 0) is among the
tokens but bit 0 of the result, 2, is not set, and bit 1 is set although ONBATT is not
among the tokens. -/
theorem convert_status_repeated_token :
    convert_status "ONLINE ONLINE" = 2 ∧
    status_codes "ONLINE" = some 0 ∧ status_codes "ONBATT" = some 1 ∧
    ¬ (Nat.testBit (convert_status "ONLINE ONLINE") 0 = true ↔
      "ONLINE" ∈ status_tokens "ONLINE ONLINE") ∧
    ¬ (Nat.testBit (convert_status "ONLINE ONLINE") 1 = true ↔
      "ONBATT" ∈ status_tokens "ONLINE ONLINE") := by
  decide

/-- C18, amended: for a status field in which no token of the table occurs twice, the
result is the sum of the powers of two of pairwise distinct bit positions, and bit `k` of
the result is set exactly when the table token with bit position `k` is among the tokens
of the field. -/
theorem convert_status_bits (value tok : String) (k : ℕ)
    (hnd : ((status_tokens value).filter fun t => (status_codes t).isSome).Nodup)
    (htok : status_codes tok = some k) :
    (Nat.testBit (convert_status value) k = true ↔ tok ∈ status_tokens value) ∧
    ((status_tokens value).filterMap status_codes).Nodup ∧
    convert_status value =
      (((status_tokens value).filterMap status_codes).map fun i => 2 ^ i).sum := by
  refine ⟨?_, codes_nodup value hnd, convert_status_eq_codes value⟩
  rw [convert_status_eq_codes, testBit_sum_two_pow _ (codes_nodup value hnd) k,
    decide_eq_true_eq]
  exact mem_codes_iff value tok k htok

/-- C18, amended, on the field `"ONBATT LOWBATT"`: bit 6 is set and LOWBATT is among the
tokens; bit 0 is not set and ONLINE is not. -/
theorem convert_status_bits_witness :
    (Nat.testBit (convert_status "ONBATT LOWBATT") 6 = true ↔
      "LOWBATT" ∈ status_tokens "ONBATT LOWBATT") ∧
    Nat.testBit (convert_status "ONBATT LOWBATT") 6 = true ∧
    Nat.testBit (convert_status "ONBATT LOWBATT") 0 = false :=
  ⟨(convert_status_bits "ONBATT LOWBATT" "LOWBATT" 6 (by decide) (by decide)).1,
    by decide, by decide⟩

/-- C19: `convert_status` returns 0 exactly when none of the trimmed tokens of the field
is in the status table; a field with a token of the table gives at least 1; the empty
field, `"N/A"` and `"COMMLOST"` give 0. -/
theorem convert_status_zero_iff :
    (∀ value : String,
      convert_status value = 0 ↔ ∀ t ∈ status_tokens value, status_codes t = none) ∧
    (∀ value : String, (∃ t ∈ status_tokens value, (status_codes t).isSome = true) →
      1 ≤ convert_status value) ∧
    convert_status "" = 0 ∧ convert_status "N/A" = 0 ∧ convert_status "COMMLOST" = 0 := by
  have hiff : ∀ value : String,
      convert_status value = 0 ↔ ∀ t ∈ status_tokens value, status_codes t = none := by
    intro value
    rw [convert_status_eq_codes]
    generalize status_tokens value = tokens
    induction tokens with
    | nil => simp
    | cons t u ih =>
      rw [List.filterMap_cons]
      cases ht : status_codes t with
      | none => simp [ih, ht]
      | some k =>
        have hpos : 0 < 2 ^ k := Nat.two_pow_pos k
        simp only [List.map_cons, List.sum_cons, List.mem_cons, forall_eq_or_imp, ht]
        constructor
        · intro h; omega
        · intro h; exact absurd h.1 (by simp)
  refine ⟨hiff, ?_, by decide, by decide, by decide⟩
  intro value ⟨t, ht, hs⟩
  rcases Nat.eq_zero_or_pos (convert_status value) with h0 | h0
  · have := (hiff value).mp h0 t ht
    rw [this] at hs
    exact absurd hs (by simp)
  · exact h0

/-! ## The receive loop on frames delivered whole -/

theorem glue_cons_ne_nil (b : ℕ) (bs : List ℕ) (conn : Conn)
    (hconn : ∀ piece ∈ conn, piece ≠ []) : ∀ piece ∈ glue (b :: bs) conn, piece ≠ [] := by
  cases conn with
  | nil => simp [glue]
  | cons s r =>
    intro piece hp
    simp only [glue, List.mem_cons] at hp
    rcases hp with h | h
    · rw [h]; simp
    · exact hconn piece (List.mem_cons_of_mem _ h)

theorem attach_ne_nil (cut : Bool) (b : ℕ) (bs : List ℕ) (conn : Conn)
    (hconn : ∀ piece ∈ conn, piece ≠ []) :
    ∀ piece ∈ attach cut (b :: bs) conn, piece ≠ [] := by
  cases cut with
  | true =>
    intro piece hp
    simp only [attach, if_true, List.mem_cons] at hp
    rcases hp with h | h
    · rw [h]; simp
    · exact hconn piece h
  | false => simpa [attach] using glue_cons_ne_nil b bs conn hconn

/-- Reading as many bytes as were put in front of a connection returns these bytes and
leaves the connection. -/
theorem conn_Read_attach (cut : Bool) (b : ℕ) (bs : List ℕ) (conn : Conn)
    (hconn : ∀ piece ∈ conn, piece ≠ []) :
    conn_Read (attach cut (b :: bs) conn) (bs.length + 1) = (some (b :: bs), conn) := by
  cases cut with
  | true => simp [attach, conn_Read]
  | false =>
    cases conn with
    | nil => simp [attach, glue, conn_Read]
    | cons s r =>
      have hs : s ≠ [] := hconn s (List.mem_cons_self _ _)
      simp [attach, glue, conn_Read, hs]

theorem binary_Read_attach (c1 c2 : Bool) (hi lo : ℕ) (conn : Conn)
    (hconn : ∀ piece ∈ conn, piece ≠ []) :
    binary_Read (attach c1 [hi] (attach c2 [lo] conn)) =
      (some (int16_BigEndian hi lo), conn) := by
  have h1 := conn_Read_attach c2 lo [] conn hconn
  cases c1 with
  | true =>
    simp only [List.length_nil, Nat.zero_add] at h1
    simp [binary_Read, attach, conn_Read, h1]
    simp [attach] at h1
    simp [h1]
  | false =>
    cases c2 with
    | true => simp [binary_Read, attach, glue, conn_Read]
    | false =>
      cases conn with
      | nil => simp [binary_Read, attach, glue, conn_Read]
      | cons s r =>
        have hs : s ≠ [] := hconn s (List.mem_cons_self _ _)
        simp [binary_Read, attach, glue, conn_Read, hs]

theorem int16_BigEndian_length (L : ℕ) (h : L ≤ 32767) :
    int16_BigEndian (L / 256) (L % 256) = (L : ℤ) := by
  have h1 : L / 256 % 256 * 256 + L % 256 % 256 = L := by omega
  simp only [int16_BigEndian, h1]
  rw [if_pos (by omega)]

/-- One turn of the loop on a frame whose length is from 1 to 32767 and whose payload
comes in one piece. -/
theorem receive_loop_frame (fuel : ℕ) (cuts : Bool × Bool × Bool) (chunk : List ℕ)
    (conn : Conn) (length_response : ℤ) (ServerResponse : List ℕ)
    (hconn : ∀ piece ∈ conn, piece ≠ []) (h1 : 1 ≤ chunk.length)
    (h2 : chunk.length ≤ 32767) :
    receive_loop (fuel + 1) (deliver_frame cuts chunk conn) length_response ServerResponse =
      receive_loop fuel conn chunk.length (ServerResponse ++ chunk) := by
  cases chunk with
  | nil => simp at h1
  | cons b bs =>
    have hread := conn_Read_attach cuts.2.2 b bs conn hconn
    have hbin := binary_Read_attach cuts.1 cuts.2.1 ((b :: bs).length / 256)
      ((b :: bs).length % 256) (attach cuts.2.2 (b :: bs) conn)
      (attach_ne_nil cuts.2.2 b bs conn hconn)
    rw [int16_BigEndian_length _ h2] at hbin
    have hne : ¬ (((b :: bs).length : ℕ) : ℤ) = 0 := by
      simp only [List.length_cons] at h1 ⊢; omega
    have hpos : ¬ (((b :: bs).length : ℕ) : ℤ) < 0 := by omega
    rw [receive_loop, deliver_frame, hbin]
    simp only [Option.getD_some, hne, hpos, if_false, Int.toNat_ofNat]
    rw [show (b :: bs).length = bs.length + 1 from rfl, hread]

theorem deliver_ne_nil (frames : List ((Bool × Bool × Bool) × List ℕ)) (conn : Conn)
    (hconn : ∀ piece ∈ conn, piece ≠ []) (hlen : ∀ f ∈ frames, 1 ≤ f.2.length) :
    ∀ piece ∈ deliver frames conn, piece ≠ [] := by
  induction frames with
  | nil => exact hconn
  | cons f t ih =>
    have ht := ih fun g hg => hlen g (List.mem_cons_of_mem _ hg)
    have hf := hlen f (List.mem_cons_self _ _)
    cases hc : f.2 with
    | nil => rw [hc] at hf; simp at hf
    | cons b bs =>
      simp only [deliver, List.foldr_cons, deliver_frame, hc]
      exact attach_ne_nil _ _ [] _ (attach_ne_nil _ _ [] _ (attach_ne_nil _ b bs _ ht))

/-- The loop on a sequence of frames delivered whole: it reaches the connection behind
them with their payloads appended, and a length that is not negative. -/
theorem receive_loop_deliver (frames : List ((Bool × Bool × Bool) × List ℕ)) (fuel : ℕ)
    (conn : Conn) (length_response : ℤ) (ServerResponse : List ℕ)
    (hconn : ∀ piece ∈ conn, piece ≠ [])
    (hlen : ∀ f ∈ frames, 1 ≤ f.2.length ∧ f.2.length ≤ 32767)
    (h0 : 0 ≤ length_response) :
    ∃ len : ℤ, 0 ≤ len ∧
      receive_loop (frames.length + fuel) (deliver frames conn) length_response
          ServerResponse =
        receive_loop fuel conn len (ServerResponse ++ (frames.map Prod.snd).flatten) := by
  induction frames generalizing length_response ServerResponse with
  | nil => exact ⟨length_response, h0, by simp [deliver]⟩
  | cons f t ih =>
    have hf := hlen f (List.mem_cons_self _ _)
    have ht : ∀ g ∈ t, 1 ≤ g.2.length ∧ g.2.length ≤ 32767 :=
      fun g hg => hlen g (List.mem_cons_of_mem _ hg)
    obtain ⟨len, hlen0, hrec⟩ := ih (f.2.length : ℤ) (ServerResponse ++ f.2) ht
      (Int.natCast_nonneg _)
    refine ⟨len, hlen0, ?_⟩
    have hfuel : (f :: t).length + fuel = (t.length + fuel) + 1 := by
      simp only [List.length_cons]; omega
    rw [hfuel, show deliver (f :: t) conn = deliver_frame f.1 f.2 (deliver t conn) from rfl,
      receive_loop_frame _ f.1 f.2 _ _ _
        (deliver_ne_nil t conn hconn fun g hg => (ht g hg).1) hf.1 hf.2,
      hrec]
    simp [List.append_assoc]

theorem conn_size_attach (cut : Bool) (bytes : List ℕ) (conn : Conn) :
    conn_size (attach cut bytes conn) = bytes.length + conn_size conn := by
  cases cut with
  | true => simp [attach, conn_size]
  | false =>
    cases conn with
    | nil => simp [attach, glue, conn_size]
    | cons s r => simp [attach, glue, conn_size, Nat.add_assoc]

theorem conn_size_deliver (frames : List ((Bool × Bool × Bool) × List ℕ)) (conn : Conn) :
    frames.length + conn_size conn ≤ conn_size (deliver frames conn) := by
  induction frames with
  | nil => simp [deliver]
  | cons f t ih =>
    rw [show deliver (f :: t) conn = deliver_frame f.1 f.2 (deliver t conn) from rfl,
      deliver_frame, conn_size_attach, conn_size_attach, conn_size_attach]
    simp only [List.length_cons, List.length_nil]
    omega

theorem flatten_attach (cut : Bool) (bytes : List ℕ) (conn : Conn) :
    (attach cut bytes conn).flatten = bytes ++ conn.flatten := by
  cases cut with
  | true => simp [attach]
  | false =>
    cases conn with
    | nil => simp [attach, glue]
    | cons s r => simp [attach, glue]

/-- The bytes of a delivery are the frames one after the other, whatever the flags. -/
theorem flatten_deliver (frames : List ((Bool × Bool × Bool) × List ℕ)) (conn : Conn) :
    (deliver frames conn).flatten =
      (frames.map fun f => frame f.2).flatten ++ conn.flatten := by
  induction frames with
  | nil => simp [deliver]
  | cons f t ih =>
    rw [show deliver (f :: t) conn = deliver_frame f.1 f.2 (deliver t conn) from rfl,
      deliver_frame, flatten_attach, flatten_attach, flatten_attach, ih]
    simp [frame]

/-- A turn of the loop on a connection that starts with a zero length returns. -/
theorem receive_loop_zero (fuel : ℕ) (c1 c2 : Bool) (conn : Conn) (length_response : ℤ)
    (ServerResponse : List ℕ) (hconn : ∀ piece ∈ conn, piece ≠ []) :
    receive_loop (fuel + 1) (attach c1 [0] (attach c2 [0] conn)) length_response
        ServerResponse =
      RecvResult.returned ServerResponse conn := by
  rw [receive_loop, binary_Read_attach c1 c2 0 0 conn hconn]
  simp [int16_BigEndian]

/-- A turn of the loop on a closed connection returns, when the length is not negative. -/
theorem receive_loop_eof (fuel : ℕ) (length_response : ℤ) (ServerResponse : List ℕ)
    (h0 : 0 ≤ length_response) :
    receive_loop (fuel + 1) [] length_response ServerResponse =
      RecvResult.returned ServerResponse [] := by
  rw [receive_loop]
  simp only [binary_Read, conn_Read, Option.getD_none]
  by_cases hz : length_response = 0
  · simp [hz]
  · have : ¬ length_response < 0 := by omega
    simp [hz, this]

/-- A turn of the loop on a length with the high bit set panics. -/
theorem receive_loop_negative (fuel hi lo : ℕ) (rest : List ℕ) (more : Conn)
    (length_response : ℤ) (ServerResponse : List ℕ) (h : int16_BigEndian hi lo < 0) :
    receive_loop (fuel + 1) ((hi :: lo :: rest) :: more) length_response ServerResponse =
      RecvResult.panicked := by
  have hne : ¬ int16_BigEndian hi lo = 0 := by omega
  rw [receive_loop]
  simp [binary_Read, conn_Read, h, hne]

theorem conn_Read_size (conn conn' : Conn) (n : ℕ) (bytes : List ℕ)
    (h : conn_Read conn n = (some bytes, conn')) :
    conn_size conn' + bytes.length = conn_size conn ∧ (1 ≤ n → 1 ≤ bytes.length) := by
  induction conn with
  | nil => simp [conn_Read] at h
  | cons s r ih =>
    cases s with
    | nil =>
      have := ih (by simpa [conn_Read] using h)
      simpa [conn_size] using this
    | cons b bs =>
      simp only [conn_Read, Prod.mk.injEq, Option.some.injEq] at h
      obtain ⟨h1, h2⟩ := h
      subst h1
      constructor
      · by_cases hd : List.drop n (b :: bs) = []
        · rw [if_pos hd] at h2
          subst h2
          have hn : (b :: bs).length ≤ n := List.drop_eq_nil_iff.mp hd
          rw [List.take_of_length_le hn]
          simp [conn_size]
          omega
        · rw [if_neg hd] at h2
          subst h2
          simp only [conn_size, List.map_cons, List.sum_cons, List.length_take,
            List.length_drop, List.length_cons]
          omega
      · intro hn
        simp only [List.length_take, List.length_cons]
        omega

theorem conn_Read_none (conn conn' : Conn) (n : ℕ) (h : conn_Read conn n = (none, conn')) :
    conn' = [] := by
  induction conn with
  | nil => simpa [conn_Read] using h.symm
  | cons s r ih =>
    cases s with
    | nil => exact ih (by simpa [conn_Read] using h)
    | cons b bs => simp [conn_Read] at h

theorem conn_Read_size_le (conn : Conn) (n : ℕ) :
    conn_size (conn_Read conn n).2 ≤ conn_size conn := by
  cases h : conn_Read conn n with
  | mk r conn' =>
    cases r with
    | none => rw [conn_Read_none conn conn' n h]; simp [conn_size]
    | some bytes => have := (conn_Read_size conn conn' n bytes h).1; simp only; omega

theorem binary_Read_size_le (conn : Conn) :
    conn_size (binary_Read conn).2 ≤ conn_size conn := by
  have h2 := conn_Read_size_le conn 2
  have h1 := conn_Read_size_le (conn_Read conn 2).2 1
  unfold binary_Read
  split
  · rename_i hi lo c heq
    rw [heq] at h2; exact h2
  · rename_i hi c heq
    rw [heq] at h2 h1
    simp only at h1 h2
    split
    · rename_i lo c' heq'
      rw [heq'] at h1; simp only at h1 ⊢; omega
    · rename_i r c' _ heq'
      rw [heq'] at h1; simp only at h1 ⊢; omega
  · rename_i r c _ _ heq
    rw [heq] at h2; exact h2

/-- The fuel of `nis_request_receive` never runs out: the loop ends on every
connection. -/
theorem receive_loop_fuel (fuel : ℕ) (conn : Conn) (length_response : ℤ)
    (ServerResponse : List ℕ) (h : conn_size conn < fuel) :
    receive_loop fuel conn length_response ServerResponse ≠ RecvResult.out_of_fuel := by
  induction fuel generalizing conn length_response ServerResponse with
  | zero => omega
  | succ k ih =>
    have hb := binary_Read_size_le conn
    rw [receive_loop]
    cases hbr : binary_Read conn with
    | mk r c =>
      rw [hbr] at hb
      simp only at hb ⊢
      split
      · simp
      · split
        · simp
        · rename_i hz hneg
          cases hrd : conn_Read c (r.getD length_response).toNat with
          | mk rb c' =>
            cases rb with
            | none => simp
            | some bytes =>
              simp only
              have hs := conn_Read_size c c' _ bytes hrd
              have hn : 1 ≤ (r.getD length_response).toNat := by omega
              have := hs.2 hn
              apply ih
              omega

theorem nis_request_receive_ends (conn : Conn) :
    nis_request_receive conn ≠ RecvResult.out_of_fuel :=
  receive_loop_fuel _ conn 0 [] (Nat.lt_succ_self _)

/-! ## The frame decoding claims (C14, C15, C16) -/

/-- C14, as stated: a stream made of one chunk of 32768 bytes with its length `0x8000`
and a zero-length frame is not decoded to the chunk: the length is read as a negative
number and the loop panics. -/
theorem receive_long_chunk_terminated :
    (List.replicate 32768 65).length = 32768 ∧
    nis_request_receive [frame (List.replicate 32768 65) ++ [0, 0]] =
      RecvResult.panicked := by
  refine ⟨List.length_replicate _ _, ?_⟩
  have hneg : int16_BigEndian (32768 / 256) (32768 % 256) < 0 := by decide
  simp only [nis_request_receive, frame, List.length_replicate, List.cons_append]
  exact receive_loop_negative _ _ _ _ _ _ _ hneg

/-- C14, amended: for chunks of 1 to 32767 bytes, the stream of their frames followed by
a zero-length frame, cut into pieces anywhere but inside a payload, is decoded to the
concatenation of the chunks in order, and what follows the zero-length frame is left
unread. -/
theorem nis_request_receive_frames (frames : List ((Bool × Bool × Bool) × List ℕ))
    (c1 c2 : Bool) (trailing : Conn)
    (hlen : ∀ f ∈ frames, 1 ≤ f.2.length ∧ f.2.length ≤ 32767)
    (htrailing : ∀ piece ∈ trailing, piece ≠ []) :
    nis_request_receive (deliver frames (attach c1 [0] (attach c2 [0] trailing))) =
      RecvResult.returned ((frames.map Prod.snd).flatten) trailing ∧
    (deliver frames (attach c1 [0] (attach c2 [0] trailing))).flatten =
      (frames.map fun f => frame f.2).flatten ++ 0 :: 0 :: trailing.flatten := by
  constructor
  · have hsize := conn_size_deliver frames (attach c1 [0] (attach c2 [0] trailing))
    obtain ⟨k, hk⟩ : ∃ k, conn_size (deliver frames (attach c1 [0] (attach c2 [0] trailing)))
        + 1 = frames.length + (k + 1) := ⟨conn_size (deliver frames
          (attach c1 [0] (attach c2 [0] trailing))) - frames.length, by omega⟩
    obtain ⟨len, _, hrec⟩ := receive_loop_deliver frames (k + 1)
      (attach c1 [0] (attach c2 [0] trailing)) 0 [] (attach_ne_nil _ _ [] _
        (attach_ne_nil _ _ [] _ htrailing)) hlen (le_refl _)
    rw [nis_request_receive, hk, hrec, receive_loop_zero k c1 c2 trailing len _ htrailing]
    simp
  · rw [flatten_deliver, flatten_attach, flatten_attach]
    simp

/-- C14, amended, on the chunks `[65, 66]` and `[67]`, with pieces ending inside the
first length and after it, and two bytes behind the zero-length frame. -/
theorem nis_request_receive_frames_witness :
    deliver [((true, false, true), [65, 66]), ((false, true, false), [67])]
        (attach true [0] (attach false [0] [[9, 9]])) =
      [[0], [2, 65, 66], [0, 1], [67, 0], [0, 9, 9]] ∧
    nis_request_receive
        (deliver [((true, false, true), [65, 66]), ((false, true, false), [67])]
          (attach true [0] (attach false [0] [[9, 9]]))) =
      RecvResult.returned [65, 66, 67] [[9, 9]] :=
  ⟨by decide,
    (nis_request_receive_frames
      [((true, false, true), [65, 66]), ((false, true, false), [67])] true false [[9, 9]]
      (by decide) (by decide)).1⟩

/-- C15, as stated: on the length prefix 40000, the bytes `0x9C 0x40`, followed by 40000
bytes, the loop takes no payload: the prefix is read as `40000 - 65536` and the loop
panics. -/
theorem receive_length_40000 :
    40000 / 256 = 156 ∧ 40000 % 256 = 64 ∧
    int16_BigEndian 156 64 = 40000 - 65536 ∧
    nis_request_receive [156 :: 64 :: List.replicate 40000 65] = RecvResult.panicked := by
  refine ⟨by decide, by decide, by decide, ?_⟩
  exact receive_loop_negative _ _ _ _ _ _ _ (by decide)

/-- C15, amended: the length prefix is read as a signed 16-bit big-endian number. A
prefix value `L` from 1 to 32767 is read as `L`, and a turn of the loop on its frame, the
payload coming in one piece, appends the `L` bytes of the payload and goes on behind
them; a prefix value from 32768 to 65535 is read as `L - 65536`. -/
theorem receive_loop_signed_length (L : ℕ) (payload : List ℕ) (cuts : Bool × Bool × Bool)
    (conn : Conn) (fuel : ℕ) (length_response : ℤ) (ServerResponse : List ℕ)
    (h1 : 1 ≤ L) (h2 : L ≤ 32767) (hp : payload.length = L)
    (hconn : ∀ piece ∈ conn, piece ≠ []) :
    int16_BigEndian (L / 256) (L % 256) = (L : ℤ) ∧
    receive_loop (fuel + 1) (deliver_frame cuts payload conn) length_response
        ServerResponse =
      receive_loop fuel conn L (ServerResponse ++ payload) ∧
    (∀ M : ℕ, 32768 ≤ M → M ≤ 65535 →
      int16_BigEndian (M / 256) (M % 256) = (M : ℤ) - 65536) := by
  refine ⟨int16_BigEndian_length L h2, ?_, ?_⟩
  · subst hp
    exact receive_loop_frame fuel cuts payload conn length_response ServerResponse hconn
      h1 h2
  · intro M hM1 hM2
    have hM : M / 256 % 256 * 256 + M % 256 % 256 = M := by omega
    simp only [int16_BigEndian, hM]
    rw [if_neg (by omega)]

/-- C15, amended, on the prefix 3 and the payload `[65, 66, 67]` in the piece of the
prefix. -/
theorem receive_loop_signed_length_witness :
    deliver_frame (false, false, true) [65, 66, 67] [[0, 0]] = [[0, 3, 65, 66, 67], [0, 0]] ∧
    receive_loop 2 (deliver_frame (false, false, true) [65, 66, 67] [[0, 0]]) 0 [] =
      receive_loop 1 [[0, 0]] 3 ([] ++ [65, 66, 67]) :=
  ⟨by decide,
    (receive_loop_signed_length 3 [65, 66, 67] (false, false, true) [[0, 0]] 1 0 []
      (by decide) (by decide) (by decide) (by decide)).2.1⟩

/-- C16, as stated: a stream that ends after one complete frame of 32768 bytes is not
decoded to its payload: the loop panics on the length. -/
theorem receive_long_chunk_eof :
    (List.replicate 32768 65).length = 32768 ∧
    nis_request_receive [frame (List.replicate 32768 65)] = RecvResult.panicked := by
  refine ⟨List.length_replicate _ _, ?_⟩
  have hneg : int16_BigEndian (32768 / 256) (32768 % 256) < 0 := by decide
  simp only [nis_request_receive, frame, List.length_replicate]
  exact receive_loop_negative _ _ _ _ _ _ _ hneg

/-- C16, amended: for frames with payloads of 1 to 32767 bytes, a stream that ends after
the frames, cut into pieces anywhere but inside a payload, is decoded as a normal end:
the loop returns the concatenation of the payloads. -/
theorem nis_request_receive_eof (frames : List ((Bool × Bool × Bool) × List ℕ))
    (hlen : ∀ f ∈ frames, 1 ≤ f.2.length ∧ f.2.length ≤ 32767) :
    nis_request_receive (deliver frames []) =
      RecvResult.returned ((frames.map Prod.snd).flatten) [] ∧
    (deliver frames []).flatten = (frames.map fun f => frame f.2).flatten := by
  constructor
  · have hsize := conn_size_deliver frames []
    obtain ⟨k, hk⟩ : ∃ k, conn_size (deliver frames []) + 1 = frames.length + (k + 1) :=
      ⟨conn_size (deliver frames []) - frames.length, by omega⟩
    obtain ⟨len, hlen0, hrec⟩ := receive_loop_deliver frames (k + 1) [] 0 []
      (by simp) hlen (le_refl _)
    rw [nis_request_receive, hk, hrec, receive_loop_eof k len _ hlen0]
    simp
  · rw [flatten_deliver]
    simp

/-- C16, amended, on the frames of `[65, 66]` and `[67]` without a zero-length frame. -/
theorem nis_request_receive_eof_witness :
    deliver [((false, true, true), [65, 66]), ((false, false, false), [67])] [] =
      [[0, 2], [65, 66], [0, 1, 67]] ∧
    nis_request_receive
        (deliver [((false, true, true), [65, 66]), ((false, false, false), [67])] []) =
      RecvResult.returned [65, 66, 67] [] :=
  ⟨by decide,
    (nis_request_receive_eof
      [((false, true, true), [65, 66]), ((false, false, false), [67])] (by decide)).1⟩

/-- A payload cut in two pieces: the loop takes what the first `conn.Read` returns and
reads the rest of the payload as the next length. With a zero-length frame behind the
chunk `[65, 66]` it returns `[65, 0]`; without one it returns `[65]`. -/
theorem receive_split_payload :
    [[0, 2, 65], [66, 0, 0]].flatten = frame [65, 66] ++ [0, 0] ∧
    nis_request_receive [[0, 2, 65], [66, 0, 0]] = RecvResult.returned [65, 0] [] ∧
    [[0, 2, 65], [66]].flatten = frame [65, 66] ∧
    nis_request_receive [[0, 2, 65], [66]] = RecvResult.returned [65] [] := by
  decide

end Apcupsd
